import Mathlib

/-!
Verification of the markdown transformation engine of `app/main.py`:
the MarkdownV2 escaper, the inline tokenizer, the block classifier,
the table renderer, the entity reconstructor and the chunk splitter.

Strings are modelled as `List Char` (Python `str` indexing and `len`
count Unicode code points, exactly as `List Char` does).
-/

namespace MdBot

/-! ### Python character classes -/

/-- Python `\s` / `str.isspace()` character class (the whitespace set used by
`strip`, `lstrip` and the `\s` classes of the compiled patterns). -/
def pySpace (c : Char) : Bool :=
  c = ' ' || c = '\t' || c = '\n' || c.val = 0x0b || c.val = 0x0c || c = '\r' ||
  c.val = 0x1c || c.val = 0x1d || c.val = 0x1e || c.val = 0x1f ||
  c.val = 0x85 || c.val = 0xa0 || c.val = 0x1680 ||
  (0x2000 ≤ c.val && c.val ≤ 0x200a) ||
  c.val = 0x2028 || c.val = 0x2029 || c.val = 0x202f || c.val = 0x205f ||
  c.val = 0x3000

/-- The line-boundary characters of Python `str.splitlines`. -/
def isBreakChar (c : Char) : Bool :=
  c = '\n' || c = '\r' || c.val = 0x0b || c.val = 0x0c ||
  c.val = 0x1c || c.val = 0x1d || c.val = 0x1e || c.val = 0x85 ||
  c.val = 0x2028 || c.val = 0x2029

/-- The backtick character (code point 0x60). -/
def backquote : Char := Char.ofNat 0x60

/-! ### Python string primitives -/

/-- `str.lstrip()` with no argument: drop leading whitespace. -/
def pyLstrip (l : List Char) : List Char := l.dropWhile pySpace

/-- `str.rstrip()` with no argument: drop trailing whitespace. -/
def pyRstrip (l : List Char) : List Char := (l.reverse.dropWhile pySpace).reverse

/-- `str.strip()` with no argument. -/
def pyStrip (l : List Char) : List Char := pyRstrip (pyLstrip l)

/-- `str.rstrip("\r\n")`: drop the trailing run of `\r`/`\n` characters. -/
def rstripRN (l : List Char) : List Char :=
  (l.reverse.dropWhile (fun c => c = '\r' || c = '\n')).reverse

/-- Worker for `str.splitlines(keepends=True)`.  `acc` holds the (reversed)
characters of the line being accumulated; `\r\n` counts as one terminator. -/
def splitlinesGo (acc : List Char) : List Char → List (List Char)
  | [] => if acc.isEmpty then [] else [acc.reverse]
  | c :: rest =>
    if c = '\r' then
      match rest with
      | d :: rest2 =>
        if d = '\n' then (acc.reverse ++ ['\r', '\n']) :: splitlinesGo [] rest2
        else (acc.reverse ++ ['\r']) :: splitlinesGo [] (d :: rest2)
      | [] => [acc.reverse ++ ['\r']]
    else if isBreakChar c then
      (acc.reverse ++ [c]) :: splitlinesGo [] rest
    else splitlinesGo (c :: acc) rest

/-- Python `text.splitlines(keepends=True)`. -/
def pySplitlines (l : List Char) : List (List Char) := splitlinesGo [] l

/-! ### `split_message` (the chunk splitter, `app/main.py:477`) -/

/-- The hard-cut loop of `split_message`: slice an oversized line into
consecutive `limit`-sized pieces (`while start < len(line): ...`).
For `limit = 0` the Python loop does not terminate; that branch is
unreachable from the claims, which all assume `1 ≤ limit`. -/
def chunksOf : Nat → List Char → List (List Char)
  | _, [] => []
  | 0, _ :: _ => []
  | limit + 1, c :: rest =>
    ((c :: rest).take (limit + 1)) :: chunksOf (limit + 1) (rest.drop limit)
termination_by _ l => l.length
decreasing_by
  simp only [List.length_drop, List.length_cons]
  omega

/-- The main loop of `split_message`: greedily pack whole lines into
`current`, flushing on overflow; oversized lines are hard-cut. -/
def splitLoop (limit : Nat) : List (List Char) → List Char → List (List Char)
  | [], current => if current.isEmpty then [] else [current]
  | line :: rest, current =>
    if current.length + line.length ≤ limit then
      splitLoop limit rest (current ++ line)
    else
      (if current.isEmpty then [] else [current]) ++
      (if line.length ≤ limit then splitLoop limit rest line
       else chunksOf limit line ++ splitLoop limit rest [])

/-- `split_message(text, limit)` from `app/main.py:477`. -/
def split_message (text : List Char) (limit : Nat) : List (List Char) :=
  splitLoop limit (pySplitlines text) []

/-! ### Telegram entities (`apply_entities`, `app/main.py:365`) -/

/-- A Telegram message entity as consumed by `apply_entities`.  The code
reads the `type`, `offset` and `length` dict keys with `.get`; `none`
models a missing key (and, for `offset`/`length`, any non-`int` value,
which the `isinstance` guard treats identically to a missing one; a
non-string `type` behaves like an unrecognized one). -/
structure TgEntity where
  type : Option String
  offset : Option Int
  length : Option Int

/-- Number of UTF-16 code units of one code point
(`2 if ord(ch) > 0xFFFF else 1`). -/
def utf16Units (c : Char) : Int := if 0xFFFF < c.toNat then 2 else 1

/-- The loop of `_utf16_offset_to_index` (`app/main.py:356`). -/
def utf16Go (offset : Int) : Int → Nat → List Char → Nat
  | _, index, [] => index
  | count, index, ch :: rest =>
    if offset ≤ count then index
    else utf16Go offset (count + utf16Units ch) (index + 1) rest

/-- `_utf16_offset_to_index(text, offset)` from `app/main.py:356`. -/
def utf16_offset_to_index (text : List Char) (offset : Int) : Nat :=
  utf16Go offset 0 0 text

/-- Total UTF-16 length of a text (number of 16-bit units). -/
def utf16Length (text : List Char) : Int := (text.map utf16Units).sum

/-- The `(position, marker)` pairs one entity contributes to `inserts`
(appended end-first, exactly as in the Python loop body). -/
def entityInsertPairs (text : List Char) (e : TgEntity) : List (Nat × List Char) :=
  match e.type, e.offset, e.length with
  | some t, some o, some len =>
    if t = "bold" ∨ t = "italic" ∨ t = "code" ∨ t = "pre" then
      let s := utf16_offset_to_index text o
      let en := utf16_offset_to_index text (o + len)
      if t = "bold" then [(en, ['*', '*']), (s, ['*', '*'])]
      else if t = "italic" then [(en, ['*']), (s, ['*'])]
      else if t = "code" then [(en, [backquote]), (s, [backquote])]
      else [(en, '\n' :: backquote :: backquote :: backquote :: []),
            (s, backquote :: backquote :: backquote :: '\n' :: [])]
    else []
  | _, _, _ => []

/-- The full `inserts` list accumulated over all entities. -/
def entityInserts (text : List Char) (es : List TgEntity) : List (Nat × List Char) :=
  (es.map (entityInsertPairs text)).flatten

/-- Strict descending comparison on the Python sort key
`(position, len(marker))`. -/
def insertKeyLt (a b : Nat × List Char) : Bool :=
  a.1 < b.1 || (a.1 = b.1 && a.2.length < b.2.length)

def insertDescSorted (x : Nat × List Char) :
    List (Nat × List Char) → List (Nat × List Char)
  | [] => [x]
  | y :: ys => if insertKeyLt x y then y :: insertDescSorted x ys else x :: y :: ys

/-- `inserts.sort(key=lambda item: (item[0], len(item[1])), reverse=True)`.
Python's sort is stable, and any two stable sorts by the same key compute
the same list, so this stable insertion sort returns exactly the list the
Python call produces. -/
def sortInsertsDesc : List (Nat × List Char) → List (Nat × List Char)
  | [] => []
  | x :: xs => insertDescSorted x (sortInsertsDesc xs)

/-- `result[:position] + marker + result[position:]`. -/
def spliceAt (l : List Char) (pos : Nat) (marker : List Char) : List Char :=
  l.take pos ++ marker ++ l.drop pos

/-- `apply_entities(text, entities)` from `app/main.py:365`.
`entities = None` is modelled by the empty list (both fail `if not entities`). -/
def apply_entities (text : List Char) (es : List TgEntity) : List Char :=
  if es.isEmpty then text
  else
    let inserts := entityInserts text es
    if inserts.isEmpty then text
    else (sortInsertsDesc inserts).foldl (fun r pm => spliceAt r pm.1 pm.2) text

/-! ### The MarkdownV2 escapers (`app/main.py:63`) -/

/-- The reserved characters of `MARKDOWN_V2_SPECIAL_CHARS`
(`_*[]()~`, backtick, `>#+-=|` , braces, `.!` and backslash). -/
def isSpecialChar (c : Char) : Bool :=
  c = '_' || c = '*' || c = '[' || c = ']' || c = '(' || c = ')' || c = '~' ||
  c = backquote || c = '>' || c = '#' || c = '+' || c = '-' || c = '=' ||
  c = '|' || c.val = 0x7b || c.val = 0x7d || c = '.' || c = '!' || c = '\\'

/-- `escape_markdown_v2(text)`: prefix every reserved character with a
backslash. -/
def escape_markdown_v2 : List Char → List Char
  | [] => []
  | c :: rest =>
    if isSpecialChar c then '\\' :: c :: escape_markdown_v2 rest
    else c :: escape_markdown_v2 rest

/-- `escape_markdown_v2_url(url)`: escape only `)` and `\`. -/
def escape_markdown_v2_url : List Char → List Char
  | [] => []
  | c :: rest =>
    if c = ')' || c = '\\' then '\\' :: c :: escape_markdown_v2_url rest
    else c :: escape_markdown_v2_url rest

/-- `text.replace(old, new)` for a single-character `old`. -/
def pyReplaceChar (old : Char) (new : List Char) : List Char → List Char
  | [] => []
  | c :: rest =>
    if c = old then new ++ pyReplaceChar old new rest
    else c :: pyReplaceChar old new rest

/-- `escape_markdown_v2_code(text)`: double backslashes first, then escape
backticks. -/
def escape_markdown_v2_code (l : List Char) : List Char :=
  pyReplaceChar backquote ['\\', backquote] (pyReplaceChar '\\' ['\\', '\\'] l)

/-! ### The inline tokenizer (`_TOKEN_PATTERN`, `_format_inline`) -/

/-- `[^\s)]` — a character allowed inside a link target. -/
def urlBodyChar (c : Char) : Bool := !pySpace c && !(c = ')')

/-- Case-insensitive prefix test (the `https?` letters are matched under
`re.IGNORECASE`; the pattern side is lowercase). -/
def ciStarts : List Char → List Char → Bool
  | [], _ => true
  | _ :: _, [] => false
  | p :: ps, c :: cs => c.toLower = p && ciStarts ps cs

/-- Length of the `https?://` scheme at the head of `l` (the regex tries
the variant with `s` first), if present. -/
def schemeLength (l : List Char) : Option Nat :=
  if ciStarts ("https://".data) l then some 8
  else if ciStarts ("http://".data) l then some 7
  else none

/-- The `link` alternative `\[([^\]]+)\]\((https?://[^\s)]+)\)` at the
current position `c :: rest`.  `[^\]]+` is greedy but its class excludes
`]`, so it deterministically extends to the first `]`.  Returns the
rendered output, the last character of the matched text (for the italic
lookbehind of later matches) and the number of characters consumed from
`rest`. -/
def matchLink (c : Char) (rest : List Char) : Option (List Char × Char × Nat) :=
  if c = '[' then
    let d := rest.takeWhile (fun x => !(x = ']'))
    if d.isEmpty then none
    else
      match rest.drop d.length with
      | x1 :: x2 :: r2 =>
        if x1 = ']' ∧ x2 = '(' then
          match schemeLength r2 with
          | some sl =>
            let w := (r2.drop sl).takeWhile urlBodyChar
            if w.isEmpty then none
            else
              match (r2.drop sl).drop w.length with
              | x3 :: _ =>
                if x3 = ')' then
                  let url := r2.take sl ++ w
                  some ('[' :: (escape_markdown_v2 d ++ ']' :: '(' ::
                          (escape_markdown_v2_url url ++ [')'])),
                        ')', d.length + 2 + sl + w.length + 1)
                else none
              | [] => none
          | none => none
        else none
      | _ => none
  else none

/-- The `code` alternative: backtick, `[^`]+` (greedy, stops at the next
backtick), backtick. -/
def matchCode (c : Char) (rest : List Char) : Option (List Char × Char × Nat) :=
  if c = backquote then
    let inner := rest.takeWhile (fun x => !(x = backquote))
    if inner.isEmpty then none
    else
      match rest.drop inner.length with
      | x :: _ =>
        if x = backquote then
          some (backquote :: (escape_markdown_v2_code inner ++ [backquote]),
                backquote, inner.length + 1)
        else none
      | [] => none
  else none

/-- Non-greedy `(.+?)` followed by `marker`: the minimal non-empty content
(newline-free, since `.` excludes `\n`) such that `marker` follows.
Returns the content and the total consumed count (content plus marker). -/
def findCloser (marker : List Char) : List Char → Option (List Char × Nat)
  | [] => none
  | c :: rest =>
    if c = '\n' then none
    else if marker.isPrefixOf rest then some ([c], 1 + marker.length)
    else
      match findCloser marker rest with
      | some (content, n) => some (c :: content, n + 1)
      | none => none

/-- The `bold_italic` alternative `\*\*\*(.+?)\*\*\*`, rendered `*_..._*`. -/
def matchBoldItalic (c : Char) (rest : List Char) :
    Option (List Char × Char × Nat) :=
  match rest with
  | x1 :: x2 :: r3 =>
    if c = '*' ∧ x1 = '*' ∧ x2 = '*' then
      match findCloser ['*', '*', '*'] r3 with
      | some (content, n) =>
        some ('*' :: '_' :: (escape_markdown_v2 content ++ ['_', '*']), '*', 2 + n)
      | none => none
    else none
  | _ => none

/-- The `bold` alternative `\*\*(.+?)\*\*`, rendered `*...*`. -/
def matchBold (c : Char) (rest : List Char) : Option (List Char × Char × Nat) :=
  match rest with
  | x1 :: r2 =>
    if c = '*' ∧ x1 = '*' then
      match findCloser ['*', '*'] r2 with
      | some (content, n) =>
        some ('*' :: (escape_markdown_v2 content ++ ['*']), '*', 1 + n)
      | none => none
    else none
  | _ => none

/-- The `italic` alternative `(?<!\*)\*([^*\n]+?)\*(?!\*)`, rendered
`_..._`.  The non-greedy class excludes `*`, so the content extends
exactly to the first `*`; if the lookahead then fails there is no longer
alternative, so the whole branch fails. -/
def matchItalic (prev : Option Char) (c : Char) (rest : List Char) :
    Option (List Char × Char × Nat) :=
  if prev = some '*' then none
  else if c = '*' then
    let content := rest.takeWhile (fun x => !(x = '*') && !(x = '\n'))
    if content.isEmpty then none
    else
      match rest.drop content.length with
      | x :: tail =>
        if x = '*' then
          if tail.head? = some '*' then none
          else some ('_' :: (escape_markdown_v2 content ++ ['_']), '*',
                     content.length + 1)
        else none
      | [] => none
  else none

/-- The `url` alternative `https?://\S+`, rendered as a link whose display
text is the URL itself. -/
def matchUrl (c : Char) (rest : List Char) : Option (List Char × Char × Nat) :=
  match schemeLength (c :: rest) with
  | some sl =>
    let u := ((c :: rest).drop sl).takeWhile (fun x => !pySpace x)
    if u.isEmpty then none
    else
      let url := (c :: rest).take sl ++ u
      some ('[' :: (escape_markdown_v2 url ++ (']' :: '(' ::
              (escape_markdown_v2_url url ++ [')']))),
            u.getLastD ' ', sl + u.length - 1)
  | none => none

/-- One scan step of `_TOKEN_PATTERN`: try the six alternatives in the
pattern's order (link, code, bold-italic, bold, italic, bare URL) at the
current position, taking the first that matches. -/
def tryToken (prev : Option Char) (c : Char) (rest : List Char) :
    Option (List Char × Char × Nat) :=
  match matchLink c rest with
  | some r => some r
  | none =>
    match matchCode c rest with
    | some r => some r
    | none =>
      match matchBoldItalic c rest with
      | some r => some r
      | none =>
        match matchBold c rest with
        | some r => some r
        | none =>
          match matchItalic prev c rest with
          | some r => some r
          | none => matchUrl c rest

/-- The `finditer` loop of `_format_inline`, with explicit fuel so that the
definition is structural (every step consumes at least one character, so
`fuel = l.length` always suffices and the fuel-exhausted branch is
unreachable from `format_inline`).  `prev` is the character before the
scan position (for the italic lookbehind), `pending` holds the reversed
unmatched characters since the last match. -/
def inlineGo : Nat → Option Char → List Char → List Char → List Char
  | _, _, [], pending => escape_markdown_v2 pending.reverse
  | 0, _, l, pending => escape_markdown_v2 (pending.reverse ++ l)
  | fuel + 1, prev, c :: rest, pending =>
    match tryToken prev c rest with
    | some (rendered, lastc, k) =>
      escape_markdown_v2 pending.reverse ++ rendered ++
        inlineGo fuel (some lastc) (rest.drop k) []
    | none => inlineGo fuel (some c) rest (c :: pending)

/-- `_format_inline(text)` from `app/main.py:142`. -/
def format_inline (text : List Char) : List Char :=
  inlineGo text.length none text []

/-! ### Line formatting (`_format_list_item`, `_format_line`) -/

/-- `_LIST_MARKERS`. -/
def listMarkers : List Char := ['—', '·', '▸', '▹']

/-- `_normalize_indent`: tabs count as 4 columns. -/
def normalize_indent (indent : List Char) : Nat :=
  (indent.map (fun c => if c = '\t' then 4 else 1)).sum

/-- `_CHECKBOX_PATTERN` (`^\[([ xX])\]\s+(.*)$`) applied to the body:
returns the checkbox state (if the pattern matches) and the residual body. -/
def parseCheckbox (body : List Char) : Option Char × List Char :=
  match body with
  | x1 :: st :: x2 :: r3 =>
    if x1 = '[' ∧ x2 = ']' ∧ (st = ' ' ∨ st = 'x' ∨ st = 'X') then
      let ws := r3.takeWhile pySpace
      if ws.isEmpty then (none, body)
      else (some st, r3.drop ws.length)
    else (none, body)
  | _ => (none, body)

/-- `_format_list_item(content)` from `app/main.py:82` (`none` when
`_LIST_ITEM_PATTERN` does not match). -/
def format_list_item (content : List Char) : Option (List Char) :=
  let indent := content.takeWhile (fun c => c = ' ' || c = '\t')
  match content.drop indent.length with
  | m :: r2 =>
    if m = '-' ∨ m = '*' then
      let ws := r2.takeWhile pySpace
      if ws.isEmpty then none
      else
        let body := r2.drop ws.length
        let cb := parseCheckbox body
        let level := min (normalize_indent indent / 2) (listMarkers.length - 1)
        let marker := listMarkers.getD level '—'
        let checkboxPart : List Char :=
          match cb.1 with
          | some st => if st.toLower = 'x' then ['☑', ' '] else ['☐', ' ']
          | none => []
        some ((List.replicate (2 * level) ' ') ++ marker :: ' ' ::
          (checkboxPart ++ format_inline cb.2))
    else none
  | [] => none

/-- The rendering of a `---` rule: ten copies of the escaped `=` glyph. -/
def hruleRender : List Char :=
  ['\\', '=', '\\', '=', '\\', '=', '\\', '=', '\\', '=',
   '\\', '=', '\\', '=', '\\', '=', '\\', '=', '\\', '=']

/-- `_format_line(content)` from `app/main.py:187`. -/
def format_line (content : List Char) : List Char :=
  if pyStrip content = ['-', '-', '-'] then hruleRender
  else
    match format_list_item content with
    | some s => s
    | none =>
      if ('#' :: ' ' :: []).isPrefixOf content then
        '_' :: '_' :: '*' :: (format_inline (pyLstrip (content.drop 2)) ++ ['*', '_', '_'])
      else if ('#' :: '#' :: ' ' :: []).isPrefixOf content then
        '*' :: (format_inline (pyLstrip (content.drop 3)) ++ ['*'])
      else if ('#' :: '#' :: '#' :: ' ' :: []).isPrefixOf content then
        '_' :: '_' :: (format_inline (pyLstrip (content.drop 4)) ++ ['_', '_'])
      else if ('>' :: ' ' :: []).isPrefixOf content then
        '>' :: ' ' :: format_inline (pyLstrip (content.drop 2))
      else format_inline content

/-! ### The table renderer (`_split_table_row`, `_format_table_block`) -/

/-- Python `str.split("|")` (always at least one piece; pieces may be
empty). -/
def splitOnPipe : List Char → List (List Char)
  | [] => [[]]
  | c :: rest =>
    if c = '|' then [] :: splitOnPipe rest
    else
      match splitOnPipe rest with
      | cell :: cells => (c :: cell) :: cells
      | [] => [[c]]

/-- `_split_table_row(line)` from `app/main.py:104`. -/
def split_table_row (line : List Char) : List (List Char) :=
  let stripped := pyStrip line
  let s1 := match stripped with
    | x :: r => if x = '|' then r else stripped
    | [] => stripped
  let s2 := if s1.getLast? = some '|' then s1.dropLast else s1
  (splitOnPipe s2).map pyStrip

/-- `cell.ljust(width)`. -/
def ljust (l : List Char) (w : Nat) : List Char :=
  l ++ List.replicate (w - l.length) ' '

/-- `row[idx] if idx < len(row) else ""`. -/
def cellAt (row : List (List Char)) (idx : Nat) : List Char := row.getD idx []

/-- The column-width loop of `_format_table_block`. -/
def tableWidths (colCount : Nat) (rows : List (List (List Char))) : List Nat :=
  rows.foldl
    (fun ws row => (List.range colCount).map
      (fun idx => max (ws.getD idx 0) (cellAt row idx).length))
    (List.replicate colCount 0)

/-- `render_row` inside `_format_table_block`. -/
def renderTableRow (colCount : Nat) (widths : List Nat)
    (row : List (List Char)) : List Char :=
  '|' :: ' ' ::
    (List.intercalate (' ' :: '|' :: ' ' :: [])
      ((List.range colCount).map (fun idx => ljust (cellAt row idx) (widths.getD idx 0)))
    ++ (' ' :: '|' :: []))

/-- `_format_table_block(lines)` from `app/main.py:113`. -/
def format_table_block (lines : List (List Char)) : List (List Char) :=
  let rows := lines.map split_table_row
  match rows with
  | [] => []
  | r0 :: rrest =>
    let colCount := (rows.map List.length).foldl max 0
    let widths := tableWidths colCount rows
    renderTableRow colCount widths r0 ::
      ('|' :: ' ' ::
        (List.intercalate (' ' :: '|' :: ' ' :: [])
          (widths.map (fun w => List.replicate w '-'))
        ++ (' ' :: '|' :: []))) ::
      rrest.map (renderTableRow colCount widths)

/-! ### The block classifier (`format_for_markdown_v2`) -/

/-- `[\s:-]`. -/
def sepX (c : Char) : Bool := pySpace c || c = ':' || c = '-'

/-- `[\s|:-]`. -/
def sepY (c : Char) : Bool := sepX c || c = '|'

/-- `[\s:-]+\|[\s|:-]*$`: since `[\s:-]` excludes `|`, the greedy run must
stop exactly at a `|`, and the trailing class must cover the remainder. -/
def sepTail (l : List Char) : Bool :=
  let run := l.takeWhile sepX
  !run.isEmpty &&
    (match l.drop run.length with
     | x :: t => x = '|' && t.all sepY
     | [] => false)

/-- `_TABLE_SEPARATOR_PATTERN.match(s)` for `^\s*\|?[\s:-]+\|[\s|:-]*$`.
The two choice points (`\s*` and `\|?`) are explored explicitly, exactly
like the engine's backtracking. -/
def tableSep (l : List Char) : Bool :=
  (List.range ((l.takeWhile pySpace).length + 1)).any (fun i =>
    let r := l.drop i
    (match r with
     | x :: r2 => x = '|' && sepTail r2
     | [] => false) || sepTail r)

/-- The terminator split at the head of the `format_for_markdown_v2` loop
(`endswith("\r\n")`, then `endswith("\n") or endswith("\r")`). -/
def splitTerminator (line : List Char) : List Char × List Char :=
  match line.reverse with
  | x1 :: x2 :: bodyRev =>
    if x1 = '\n' ∧ x2 = '\r' then (bodyRev.reverse, ['\r', '\n'])
    else if x1 = '\n' ∨ x1 = '\r' then ((x2 :: bodyRev).reverse, [x1])
    else (line, [])
  | x1 :: [] =>
    if x1 = '\n' ∨ x1 = '\r' then ([], [x1]) else (line, [])
  | [] => (line, [])

/-- `content.strip().startswith("```")`. -/
def isFenceLine (content : List Char) : Bool :=
  (backquote :: backquote :: backquote :: []).isPrefixOf (pyStrip content)

/-- The main loop of `format_for_markdown_v2` (`app/main.py:209`), with
explicit fuel for structural recursion (every iteration consumes at least
one line, so `fuel = lines.length` always suffices and the fuel-exhausted
branch is unreachable from `format_for_markdown_v2`). -/
def formatLines : Nat → Bool → List (List Char) → List Char
  | _, _, [] => []
  | 0, _, _ :: _ => []
  | fuel + 1, inCode, line :: rest =>
    let content := (splitTerminator line).1
    let newline := (splitTerminator line).2
    if isFenceLine content then
      content ++ newline ++ formatLines fuel (!inCode) rest
    else if inCode then
      escape_markdown_v2_code content ++ newline ++ formatLines fuel inCode rest
    else
      match rest with
      | next :: rest2 =>
        let nextContent := rstripRN next
        if content.contains '|' && nextContent.contains '|' && tableSep nextContent then
          let tableLines := content :: (rest2.takeWhile
            (fun l => (rstripRN l).contains '|')).map rstripRN
          let rendered := format_table_block tableLines
          backquote :: backquote :: backquote :: '\n' ::
            ((rendered.map (fun r => escape_markdown_v2_code r ++ ['\n'])).flatten ++
             ((backquote :: backquote :: backquote :: []) ++ (newline ++
              formatLines fuel false (rest2.dropWhile (fun l => (rstripRN l).contains '|')))))
        else
          format_line content ++ newline ++ formatLines fuel false (next :: rest2)
      | [] => format_line content ++ newline

/-- `format_for_markdown_v2(text)` from `app/main.py:209`. -/
def format_for_markdown_v2 (text : List Char) : List Char :=
  formatLines (pySplitlines text).length false (pySplitlines text)

/-- The sequence of line terminators of a document, line by line (the
terminator of the last line may be empty). -/
def lineTerminators (s : List Char) : List (List Char) :=
  (pySplitlines s).map (fun line => (splitTerminator line).2)

/-- Specification-level column width: the maximum (trimmed) cell length in
column `idx` across all rows. -/
def maxColWidth (rows : List (List (List Char))) (idx : Nat) : Nat :=
  (rows.map (fun row => (cellAt row idx).length)).foldr max 0

/-- A line terminator the engine re-emits verbatim (`\n`, `\r`, `\r\n`,
or none on the final line). -/
def AllowedTerm (t : List Char) : Prop :=
  t = ['\n'] ∨ t = ['\r'] ∨ t = ['\r', '\n'] ∨ t = []

/-- Shape of one line produced by `pySplitlines` on a document whose only
break characters are `\n` and `\r`. -/
def LineOk (l : List Char) : Prop :=
  l ≠ [] ∧ (∀ c ∈ (splitTerminator l).1, isBreakChar c = false) ∧
  AllowedTerm (splitTerminator l).2

/-- Shape of the whole line list: every line is `LineOk`, only the final
line may lack a terminator, and a line ending in a bare `\r` is never
followed by a line starting with `\n` (`pySplitlines` would have merged
them into one `\r\n` terminator). -/
def GoodLines : List (List Char) → Prop
  | [] => True
  | l :: rest =>
    LineOk l ∧
    (rest ≠ [] → (splitTerminator l).2 ≠ []) ∧
    ((splitTerminator l).2 = ['\r'] → ∀ l2 ∈ rest.head?, l2.head? ≠ some '\n') ∧
    GoodLines rest

/-! ### Lemmas about `pySplitlines` -/

theorem splitlinesGo_flatten (acc : List Char) (l : List Char) :
    (splitlinesGo acc l).flatten = acc.reverse ++ l := by
  induction acc, l using splitlinesGo.induct with
  | case1 acc h =>
    rw [List.isEmpty_iff] at h
    subst h
    simp [splitlinesGo]
  | case2 acc h =>
    simp only [splitlinesGo, if_neg h]
    simp
  | case3 acc rest2 ih =>
    simp [splitlinesGo, ih]
  | case4 acc d rest2 hd ih =>
    simp [splitlinesGo, hd, ih]
  | case5 acc =>
    simp [splitlinesGo]
  | case6 acc c rest hc hbrk ih =>
    rw [splitlinesGo.eq_def]
    simp [hc, hbrk, ih]
  | case7 acc c rest hc hbrk ih =>
    rw [splitlinesGo.eq_def]
    simp [hc, hbrk, ih]

theorem pySplitlines_flatten (l : List Char) : (pySplitlines l).flatten = l := by
  simpa using splitlinesGo_flatten [] l

theorem splitlinesGo_ne_nil (acc : List Char) (l : List Char) :
    ∀ line ∈ splitlinesGo acc l, line ≠ [] := by
  induction acc, l using splitlinesGo.induct with
  | case1 acc h =>
    rw [List.isEmpty_iff] at h
    subst h
    simp [splitlinesGo]
  | case2 acc h =>
    intro line hline
    simp only [splitlinesGo, if_neg h, List.mem_singleton] at hline
    subst hline
    intro hrev
    apply h
    rw [List.isEmpty_iff]
    simpa using hrev
  | case3 acc rest2 ih =>
    intro line hline
    simp only [splitlinesGo] at hline
    rcases List.mem_cons.mp hline with rfl | hline
    · simp
    · exact ih line hline
  | case4 acc d rest2 hd ih =>
    intro line hline
    simp only [splitlinesGo, if_neg hd] at hline
    rcases List.mem_cons.mp hline with rfl | hline
    · simp
    · exact ih line hline
  | case5 acc =>
    intro line hline
    simp only [splitlinesGo, if_true, List.mem_singleton] at hline
    subst hline
    simp
  | case6 acc c rest hc hbrk ih =>
    intro line hline
    rw [splitlinesGo.eq_def] at hline
    simp only [if_neg hc, hbrk, if_pos] at hline
    rcases List.mem_cons.mp hline with rfl | hline
    · simp
    · exact ih line hline
  | case7 acc c rest hc hbrk ih =>
    intro line hline
    rw [splitlinesGo.eq_def] at hline
    simp only [if_neg hc, hbrk] at hline
    exact ih line (by simpa using hline)

theorem pySplitlines_ne_nil (l : List Char) :
    ∀ line ∈ pySplitlines l, line ≠ [] :=
  splitlinesGo_ne_nil [] l

/-! ### Lemmas about the chunk splitter -/

theorem chunksOf_flatten : ∀ (limit : Nat) (l : List Char), 1 ≤ limit →
    (chunksOf limit l).flatten = l := by
  intro limit l
  induction limit, l using chunksOf.induct with
  | case1 limit => intro _; simp [chunksOf]
  | case2 c rest => intro h; omega
  | case3 limit c rest ih =>
    intro _
    simp only [Nat.succ_eq_add_one, chunksOf, List.flatten_cons, ih (by omega)]
    have h : rest.drop limit = (c :: rest).drop (limit + 1) := rfl
    rw [h, List.take_append_drop]

theorem chunksOf_mem : ∀ (limit : Nat) (l : List Char),
    ∀ c ∈ chunksOf limit l, c.length ≤ limit ∧ c ≠ [] := by
  intro limit l
  induction limit, l using chunksOf.induct with
  | case1 limit => simp [chunksOf]
  | case2 c rest => simp [chunksOf]
  | case3 limit c rest ih =>
    intro chunk hchunk
    simp only [Nat.succ_eq_add_one, chunksOf] at hchunk
    rcases List.mem_cons.mp hchunk with rfl | hchunk
    · refine ⟨by simp, by simp [List.take]⟩
    · exact ih chunk hchunk

theorem splitLoop_flatten (limit : Nat) (hl : 1 ≤ limit) (lines : List (List Char)) :
    ∀ current, (splitLoop limit lines current).flatten = current ++ lines.flatten := by
  induction lines with
  | nil =>
    intro current
    simp only [splitLoop]
    by_cases h : current.isEmpty
    · rw [List.isEmpty_iff] at h
      subst h
      simp
    · rw [if_neg h]
      simp
  | cons line rest ih =>
    intro current
    simp only [splitLoop]
    by_cases hfit : current.length + line.length ≤ limit
    · rw [if_pos hfit, ih]
      simp
    · rw [if_neg hfit, List.flatten_append]
      have hflush : (if current.isEmpty then ([] : List (List Char))
          else [current]).flatten = current := by
        by_cases h : current.isEmpty
        · rw [List.isEmpty_iff] at h
          subst h
          simp
        · rw [if_neg h]
          simp
      by_cases hline : line.length ≤ limit
      · rw [if_pos hline, hflush, ih]
        simp
      · rw [if_neg hline, hflush, List.flatten_append,
          chunksOf_flatten limit line hl, ih]
        simp

theorem splitLoop_mem (limit : Nat) (lines : List (List Char)) :
    ∀ current, current.length ≤ limit →
      ∀ c ∈ splitLoop limit lines current, c.length ≤ limit ∧ c ≠ [] := by
  induction lines with
  | nil =>
    intro current hcur c hc
    simp only [splitLoop] at hc
    by_cases h : current.isEmpty
    · rw [if_pos h] at hc
      simp at hc
    · rw [if_neg h, List.mem_singleton] at hc
      subst hc
      refine ⟨hcur, by simpa [List.isEmpty_iff] using h⟩
  | cons line rest ih =>
    intro current hcur c hc
    simp only [splitLoop] at hc
    by_cases hfit : current.length + line.length ≤ limit
    · rw [if_pos hfit] at hc
      exact ih (current ++ line) (by simp; omega) c hc
    · rw [if_neg hfit, List.mem_append] at hc
      rcases hc with hc | hc
      · by_cases h1 : current.isEmpty
        · rw [if_pos h1] at hc
          simp at hc
        · rw [if_neg h1, List.mem_singleton] at hc
          subst hc
          refine ⟨hcur, by simpa [List.isEmpty_iff] using h1⟩
      · by_cases hline : line.length ≤ limit
        · rw [if_pos hline] at hc
          exact ih line hline c hc
        · rw [if_neg hline, List.mem_append] at hc
          rcases hc with hc | hc
          · exact chunksOf_mem limit line c hc
          · exact ih [] (by simp) c hc

theorem splitLoop_runs (limit : Nat) (lines : List (List Char)) :
    ∀ current, ∀ c ∈ splitLoop limit lines current,
      (∃ n, c = current ++ (lines.take n).flatten) ∨
      (∃ pre mid post, lines = pre ++ mid ++ post ∧ c = mid.flatten) ∨
      (∃ line ∈ lines, limit < line.length ∧ c ∈ chunksOf limit line) := by
  induction lines with
  | nil =>
    intro current c hc
    simp only [splitLoop] at hc
    left
    refine ⟨0, ?_⟩
    by_cases h : current.isEmpty
    · rw [if_pos h] at hc
      simp at hc
    · rw [if_neg h, List.mem_singleton] at hc
      simp [hc]
  | cons line rest ih =>
    intro current c hc
    simp only [splitLoop] at hc
    by_cases hfit : current.length + line.length ≤ limit
    · rw [if_pos hfit] at hc
      rcases ih (current ++ line) c hc with ⟨n, rfl⟩ | ⟨pre, mid, post, heq, rfl⟩ |
        ⟨l, hl, hlen, hmem⟩
      · left
        exact ⟨n + 1, by simp⟩
      · right; left
        exact ⟨line :: pre, mid, post, by simp [heq], rfl⟩
      · right; right
        exact ⟨l, List.mem_cons_of_mem _ hl, hlen, hmem⟩
    · rw [if_neg hfit, List.mem_append] at hc
      rcases hc with hc | hc
      · have hcc : c = current := by
          by_cases h : current.isEmpty
          · rw [if_pos h] at hc
            simp at hc
          · rw [if_neg h, List.mem_singleton] at hc
            exact hc
        left
        exact ⟨0, by simp [hcc]⟩
      · by_cases hline : line.length ≤ limit
        · rw [if_pos hline] at hc
          rcases ih line c hc with ⟨n, rfl⟩ | ⟨pre, mid, post, heq, rfl⟩ |
            ⟨l, hl, hlen, hmem⟩
          · right; left
            refine ⟨[], line :: rest.take n, rest.drop n, ?_, by simp⟩
            simp [List.take_append_drop]
          · right; left
            exact ⟨line :: pre, mid, post, by simp [heq], rfl⟩
          · right; right
            exact ⟨l, List.mem_cons_of_mem _ hl, hlen, hmem⟩
        · rw [if_neg hline, List.mem_append] at hc
          rcases hc with hc | hc
          · right; right
            exact ⟨line, List.mem_cons_self _ _, by omega, hc⟩
          · rcases ih [] c hc with ⟨n, rfl⟩ | ⟨pre, mid, post, heq, rfl⟩ |
              ⟨l, hl, hlen, hmem⟩
            · right; left
              refine ⟨[line], rest.take n, rest.drop n, ?_, by simp⟩
              simp [List.take_append_drop]
            · right; left
              exact ⟨line :: pre, mid, post, by simp [heq], rfl⟩
            · right; right
              exact ⟨l, List.mem_cons_of_mem _ hl, hlen, hmem⟩

/-! ### Claim theorems: C2 and C3 -/

/-- C2: for every string `s` and every `limit ≥ 1`, concatenating the chunks
returned by `split_message s limit` in order reproduces `s` exactly (no
character dropped, duplicated or reordered). -/
theorem C2_split_join (s : List Char) (limit : Nat) (hl : 1 ≤ limit) :
    (split_message s limit).flatten = s := by
  unfold split_message
  rw [splitLoop_flatten limit hl, List.nil_append, pySplitlines_flatten]

theorem C2_split_join_witness :
    1 ≤ 3 ∧ (split_message ('a' :: 'b' :: '\n' :: 'c' :: 'd' :: []) 3).flatten =
      'a' :: 'b' :: '\n' :: 'c' :: 'd' :: [] :=
  ⟨by decide, C2_split_join ('a' :: 'b' :: '\n' :: 'c' :: 'd' :: []) 3 (by decide)⟩

/-- C3: for every string `s` and `limit ≥ 1`: every chunk of
`split_message s limit` has length `≤ limit` and is non-empty, the empty
string splits into the empty list, and every chunk is either a concatenation
of consecutive whole lines of `s` (so its boundaries fall on line
boundaries) or a hard-cut slice of a single line longer than `limit`. -/
theorem C3_split_invariants (s : List Char) (limit : Nat) (_hl : 1 ≤ limit) :
    (∀ c ∈ split_message s limit, c.length ≤ limit ∧ c ≠ []) ∧
    split_message [] limit = [] ∧
    (∀ c ∈ split_message s limit,
      (∃ pre mid post, pySplitlines s = pre ++ mid ++ post ∧ c = mid.flatten) ∨
      (∃ line ∈ pySplitlines s, limit < line.length ∧ c ∈ chunksOf limit line)) := by
  refine ⟨?_, ?_, ?_⟩
  · intro c hc
    exact splitLoop_mem limit (pySplitlines s) [] (by simp) c hc
  · rfl
  · intro c hc
    rcases splitLoop_runs limit (pySplitlines s) [] c hc with ⟨n, rfl⟩ | h | h
    · left
      exact ⟨[], (pySplitlines s).take n, (pySplitlines s).drop n,
        by simp [List.take_append_drop], by simp⟩
    · left; exact h
    · right; exact h

/-! ### Lemmas about `apply_entities` -/

theorem spliceAt_length (l : List Char) (pos : Nat) (marker : List Char) :
    (spliceAt l pos marker).length = l.length + marker.length := by
  simp only [spliceAt, List.length_append, List.length_take, List.length_drop]
  omega

theorem spliceAt_sublist (l : List Char) (pos : Nat) (marker : List Char) :
    List.Sublist l (spliceAt l pos marker) := by
  have h : List.Sublist (l.take pos ++ l.drop pos) (l.take pos ++ (marker ++ l.drop pos)) :=
    (List.sublist_append_right marker (l.drop pos)).append_left (l.take pos)
  rw [List.take_append_drop] at h
  simpa [spliceAt, List.append_assoc] using h

theorem foldl_splice_length (inserts : List (Nat × List Char)) :
    ∀ text : List Char,
      (inserts.foldl (fun r pm => spliceAt r pm.1 pm.2) text).length =
        text.length + (inserts.map (fun pm => pm.2.length)).sum := by
  induction inserts with
  | nil => intro text; simp
  | cons pm rest ih =>
    intro text
    simp only [List.foldl_cons, List.map_cons, List.sum_cons, ih, spliceAt_length]
    omega

theorem foldl_splice_sublist (inserts : List (Nat × List Char)) :
    ∀ text : List Char,
      List.Sublist text (inserts.foldl (fun r pm => spliceAt r pm.1 pm.2) text) := by
  induction inserts with
  | nil => intro text; simp
  | cons pm rest ih =>
    intro text
    exact (spliceAt_sublist text pm.1 pm.2).trans (ih _)

theorem insertDescSorted_perm (x : Nat × List Char) (l : List (Nat × List Char)) :
    List.Perm (insertDescSorted x l) (x :: l) := by
  induction l with
  | nil => exact List.Perm.refl _
  | cons y ys ih =>
    by_cases h : insertKeyLt x y
    · simp only [insertDescSorted, if_pos h]
      exact (ih.cons y).trans (List.Perm.swap x y ys)
    · simp only [insertDescSorted, if_neg h]
      exact List.Perm.refl _

theorem sortInsertsDesc_perm (l : List (Nat × List Char)) :
    List.Perm (sortInsertsDesc l) l := by
  induction l with
  | nil => exact List.Perm.refl _
  | cons x xs ih =>
    exact (insertDescSorted_perm x (sortInsertsDesc xs)).trans (ih.cons x)

theorem apply_entities_length (text : List Char) (es : List TgEntity) :
    (apply_entities text es).length =
      text.length + ((entityInserts text es).map (fun pm => pm.2.length)).sum := by
  unfold apply_entities
  by_cases h1 : es.isEmpty
  · rw [if_pos h1]
    rw [List.isEmpty_iff] at h1
    subst h1
    simp [entityInserts]
  · rw [if_neg h1]
    by_cases h2 : (entityInserts text es).isEmpty
    · simp only [h2, if_pos]
      rw [List.isEmpty_iff] at h2
      simp [h2]
    · simp only [h2, Bool.false_eq_true, if_false]
      rw [foldl_splice_length]
      have hperm := ((sortInsertsDesc_perm (entityInserts text es)).map
        (fun pm : Nat × List Char => pm.2.length)).sum_eq
      rw [hperm]

theorem apply_entities_sublist (text : List Char) (es : List TgEntity) :
    List.Sublist text (apply_entities text es) := by
  unfold apply_entities
  by_cases h1 : es.isEmpty
  · rw [if_pos h1]
  · rw [if_neg h1]
    by_cases h2 : (entityInserts text es).isEmpty
    · simp only [h2, if_pos]
      exact List.Sublist.refl _
    · simp only [h2, Bool.false_eq_true, if_false]
      exact foldl_splice_sublist _ text

/-! ### Claim theorems: C10, C7, C1 -/

/-- C10: `apply_entities` only inserts marker strings: the original text is
a subsequence (in order) of the result, and the result's length is the
input length plus the total length of the inserted markers. -/
theorem C10_insert_only (text : List Char) (es : List TgEntity) :
    List.Sublist text (apply_entities text es) ∧
    (apply_entities text es).length =
      text.length + ((entityInserts text es).map (fun pm => pm.2.length)).sum :=
  ⟨apply_entities_sublist text es, apply_entities_length text es⟩

/-- A `type` string recognized by `apply_entities`. -/
def recognizedKind (t : String) : Prop :=
  t = "bold" ∨ t = "italic" ∨ t = "code" ∨ t = "pre"

/-- C7: malformed entities are skipped (a list made only of entities with
unrecognized/missing kind or missing/non-integer offset or length leaves
the text unchanged), and a UTF-16 offset at or beyond the end of the text
clamps to the text's end. -/
theorem C7_malformed_entities (text : List Char) (es : List TgEntity) (offset : Int)
    (hmal : ∀ e ∈ es, (∀ t, e.type = some t → ¬recognizedKind t) ∨
      e.offset = none ∨ e.length = none)
    (hoff : utf16Length text ≤ offset) :
    apply_entities text es = text ∧
    utf16_offset_to_index text offset = text.length := by
  constructor
  · have hins : entityInserts text es = [] := by
      unfold entityInserts
      rw [List.flatten_eq_nil_iff]
      intro lp hlp
      rw [List.mem_map] at hlp
      obtain ⟨e, he, rfl⟩ := hlp
      obtain ⟨ty, off, len⟩ := e
      rcases hmal _ he with hk | hoffn | hlenn
      · cases ty with
        | none => rfl
        | some t =>
          cases off with
          | none => rfl
          | some o =>
            cases len with
            | none => rfl
            | some ln =>
              simp only [entityInsertPairs]
              exact if_neg (hk t rfl)
      · have h : off = none := hoffn
        subst h
        cases ty <;> cases len <;> rfl
      · have h : len = none := hlenn
        subst h
        cases ty <;> cases off <;> rfl
    unfold apply_entities
    by_cases h1 : es.isEmpty
    · rw [if_pos h1]
    · rw [if_neg h1]
      simp [hins]
  · have hpos : ∀ l : List Char, ∀ count index : Nat, True := fun _ _ _ => trivial
    clear hpos
    have key : ∀ (l : List Char) (cnt : Int) (index : Nat),
        cnt + (l.map utf16Units).sum ≤ offset →
        utf16Go offset cnt index l = index + l.length := by
      intro l
      induction l with
      | nil => intro cnt index _; simp [utf16Go]
      | cons ch rest ih =>
        intro cnt index h
        have hu : 1 ≤ utf16Units ch := by
          unfold utf16Units
          split <;> omega
        have hrest : 0 ≤ (rest.map utf16Units).sum := by
          apply List.sum_nonneg
          intro x hx
          rw [List.mem_map] at hx
          obtain ⟨c, _, rfl⟩ := hx
          unfold utf16Units
          split <;> omega
        simp only [List.map_cons, List.sum_cons] at h
        have hlt : ¬offset ≤ cnt := by omega
        simp only [utf16Go, if_neg hlt]
        rw [ih (cnt + utf16Units ch) (index + 1) (by omega)]
        simp only [List.length_cons]
        omega
    have hres := key text 0 0 (by simpa [utf16Length] using hoff)
    simpa [utf16_offset_to_index] using hres

theorem C7_malformed_entities_witness :
    (∀ e ∈ [(⟨some "spoiler", some 0, some 1⟩ : TgEntity),
            ⟨some "bold", none, some 1⟩, ⟨none, some 0, some 1⟩],
        (∀ t, e.type = some t → ¬recognizedKind t) ∨
          e.offset = none ∨ e.length = none) ∧
    utf16Length ('a' :: 'b' :: []) ≤ 7 ∧
    (apply_entities ('a' :: 'b' :: [])
        [⟨some "spoiler", some 0, some 1⟩, ⟨some "bold", none, some 1⟩,
         ⟨none, some 0, some 1⟩] = 'a' :: 'b' :: [] ∧
      utf16_offset_to_index ('a' :: 'b' :: []) 7 = ('a' :: 'b' :: []).length) := by
  refine ⟨?_, ?_, ?_⟩
  · intro e he
    simp only [List.mem_cons, List.mem_singleton] at he
    rcases he with rfl | rfl | rfl | h
    · left
      intro t ht hrec
      cases ht
      rcases hrec with h | h | h | h <;> simp at h
    · right; left; rfl
    · left
      intro t ht
      cases ht
    · cases h
  · decide
  · refine C7_malformed_entities ('a' :: 'b' :: []) _ 7 ?_ (by decide)
    intro e he
    simp only [List.mem_cons, List.mem_singleton] at he
    rcases he with rfl | rfl | rfl | h
    · left
      intro t ht hrec
      cases ht
      rcases hrec with h | h | h | h <;> simp at h
    · right; left; rfl
    · left
      intro t ht
      cases ht
    · cases h

/-- An entity that `apply_entities` actually acts on. -/
def wellFormedEntity (e : TgEntity) : Prop :=
  ∃ t o len, e.type = some t ∧
    (t = "bold" ∨ t = "italic" ∨ t = "code" ∨ t = "pre") ∧
    e.offset = some o ∧ e.length = some len

/-- C1 (counterexample): the text `**a**` contains literal emphasis markers
and the entity list `[bold 0 1]` is non-empty, yet `apply_entities` does
not return the text unchanged — the code has no skip-on-literal-markers
check at all. -/
theorem C1_counterexample :
    ¬(apply_entities ('*' :: '*' :: 'a' :: '*' :: '*' :: [])
        [⟨some "bold", some 0, some 1⟩] =
      '*' :: '*' :: 'a' :: '*' :: '*' :: []) := by decide

/-- C1 (amended): `apply_entities` never skips reconstruction because of
literal emphasis markers in the text: whenever the entity list contains at
least one well-formed recognized entity, markers are inserted and the
result is strictly longer than the input, whatever the text contains. -/
theorem C1_amended (text : List Char) (es : List TgEntity)
    (h : ∃ e ∈ es, wellFormedEntity e) :
    text.length < (apply_entities text es).length := by
  obtain ⟨e, he, t, o, len, htype, hkind, hoff, hlen⟩ := h
  have hpair : ∃ pm ∈ entityInsertPairs text e, 1 ≤ pm.2.length := by
    obtain ⟨ty, off2, len2⟩ := e
    have h1 : ty = some t := htype
    have h2 : off2 = some o := hoff
    have h3 : len2 = some len := hlen
    subst h1
    subst h2
    subst h3
    simp only [entityInsertPairs]
    rw [if_pos hkind]
    rcases hkind with rfl | rfl | rfl | rfl
    · rw [if_pos rfl]
      exact ⟨_, List.mem_cons_self _ _, by simp⟩
    · rw [if_neg (by decide), if_pos rfl]
      exact ⟨_, List.mem_cons_self _ _, by simp⟩
    · rw [if_neg (by decide), if_neg (by decide), if_pos rfl]
      exact ⟨_, List.mem_cons_self _ _, by simp⟩
    · rw [if_neg (by decide), if_neg (by decide), if_neg (by decide)]
      exact ⟨_, List.mem_cons_self _ _, by simp⟩
  obtain ⟨pm, hpm, hpmlen⟩ := hpair
  have hmem : pm ∈ entityInserts text es := by
    unfold entityInserts
    rw [List.mem_flatten]
    exact ⟨entityInsertPairs text e, List.mem_map_of_mem _ he, hpm⟩
  have hsum : 1 ≤ ((entityInserts text es).map (fun pm => pm.2.length)).sum := by
    calc 1 ≤ pm.2.length := hpmlen
    _ ≤ _ := List.single_le_sum (by intro x _; omega) _
      (List.mem_map_of_mem (fun pm : Nat × List Char => pm.2.length) hmem)
  rw [apply_entities_length]
  omega

theorem C1_amended_witness :
    (∃ e ∈ [(⟨some "bold", some 0, some 1⟩ : TgEntity)], wellFormedEntity e) ∧
    ('*' :: '*' :: 'a' :: '*' :: '*' :: []).length <
      (apply_entities ('*' :: '*' :: 'a' :: '*' :: '*' :: [])
        [⟨some "bold", some 0, some 1⟩]).length :=
  ⟨⟨_, List.mem_singleton.mpr rfl, "bold", 0, 1, rfl, Or.inl rfl, rfl, rfl⟩,
   C1_amended _ _ ⟨_, List.mem_singleton.mpr rfl, "bold", 0, 1, rfl, Or.inl rfl, rfl, rfl⟩⟩

theorem C3_split_invariants_witness :
    1 ≤ 2 ∧
    ((∀ c ∈ split_message ('a' :: 'b' :: 'c' :: []) 2, c.length ≤ 2 ∧ c ≠ []) ∧
     split_message [] 2 = [] ∧
     (∀ c ∈ split_message ('a' :: 'b' :: 'c' :: []) 2,
       (∃ pre mid post, pySplitlines ('a' :: 'b' :: 'c' :: []) = pre ++ mid ++ post ∧
          c = mid.flatten) ∨
       (∃ line ∈ pySplitlines ('a' :: 'b' :: 'c' :: []), 2 < line.length ∧
          c ∈ chunksOf 2 line))) :=
  ⟨by decide, C3_split_invariants ('a' :: 'b' :: 'c' :: []) 2 (by decide)⟩

/-! ### Claim theorems: C6 and the C4 counterexample -/

/-- C6: for the text `text` with no literal markers and the single entity
`{bold, 0, 4}`, reconstructing and then transforming yields exactly the
transform of the literal input `**text**` (the reconstruction itself
produces `**text**`). -/
theorem C6_entity_literal_equiv :
    apply_entities ('t' :: 'e' :: 'x' :: 't' :: []) [⟨some "bold", some 0, some 4⟩] =
      '*' :: '*' :: 't' :: 'e' :: 'x' :: 't' :: '*' :: '*' :: [] ∧
    format_for_markdown_v2
        (apply_entities ('t' :: 'e' :: 'x' :: 't' :: [])
          [⟨some "bold", some 0, some 4⟩]) =
      format_for_markdown_v2
        ('*' :: '*' :: 't' :: 'e' :: 'x' :: 't' :: '*' :: '*' :: []) := by
  decide

/-- C4 (counterexample): on the document `a|b\r-|-` the table branch of
`format_for_markdown_v2` emits `\n`-terminated fence and table lines and
drops the consumed lines' own terminators, so the output's terminator
sequence differs from the input's. -/
theorem C4_counterexample :
    ¬(lineTerminators (format_for_markdown_v2
        ('a' :: '|' :: 'b' :: '\r' :: '-' :: '|' :: '-' :: [])) =
      lineTerminators ('a' :: '|' :: 'b' :: '\r' :: '-' :: '|' :: '-' :: [])) := by
  decide

/-! ### Lemmas about the table renderer -/

theorem getD_range_map {α : Type} (n : Nat) (f : Nat → α) (d : α) (i : Nat)
    (h : i < n) : (((List.range n).map f).getD i d) = f i := by
  rw [List.getD_eq_getElem?_getD, List.getElem?_map, List.getElem?_range h]
  rfl

theorem getD_map_lt {α β : Type} (f : α → β) (l : List α) (i : Nat)
    (h : i < l.length) (d : β) (d0 : α) :
    (l.map f).getD i d = f (l.getD i d0) := by
  have h2 : i < (l.map f).length := by simpa using h
  rw [List.getD_eq_getElem _ _ h2, List.getD_eq_getElem _ _ h]
  simp

theorem tableWidths_go_length (colCount : Nat) :
    ∀ (rows : List (List (List Char))) (ws : List Nat), ws.length = colCount →
      (rows.foldl (fun ws row => (List.range colCount).map
        (fun idx => max (ws.getD idx 0) (cellAt row idx).length)) ws).length =
        colCount := by
  intro rows
  induction rows with
  | nil => intro ws h; simpa using h
  | cons row rest ih =>
    intro ws _
    simp only [List.foldl_cons]
    exact ih _ (by simp)

theorem tableWidths_length (colCount : Nat) (rows : List (List (List Char))) :
    (tableWidths colCount rows).length = colCount :=
  tableWidths_go_length colCount rows _ (by simp)

theorem tableWidths_go_getD (colCount : Nat) (idx : Nat) (hidx : idx < colCount) :
    ∀ (rows : List (List (List Char))) (ws : List Nat),
      ((rows.foldl (fun ws row => (List.range colCount).map
        (fun idx => max (ws.getD idx 0) (cellAt row idx).length)) ws).getD idx 0) =
        max (ws.getD idx 0) (maxColWidth rows idx) := by
  intro rows
  induction rows with
  | nil => intro ws; simp [maxColWidth]
  | cons row rest ih =>
    intro ws
    simp only [List.foldl_cons]
    rw [ih]
    rw [getD_range_map _ _ _ _ hidx]
    simp only [maxColWidth, List.map_cons, List.foldr_cons]
    rw [Nat.max_assoc]

theorem tableWidths_getD (colCount : Nat) (rows : List (List (List Char)))
    (idx : Nat) (hidx : idx < colCount) :
    (tableWidths colCount rows).getD idx 0 = maxColWidth rows idx := by
  unfold tableWidths
  rw [tableWidths_go_getD colCount idx hidx]
  have : (List.replicate colCount (0 : Nat)).getD idx 0 = 0 := by
    rw [List.getD_eq_getElem?_getD]
    simp [List.getElem?_replicate, hidx]
  rw [this]
  simp

theorem cellAt_le_maxColWidth (rows : List (List (List Char)))
    (row : List (List Char)) (h : row ∈ rows) (idx : Nat) :
    (cellAt row idx).length ≤ maxColWidth rows idx := by
  induction rows with
  | nil => simp at h
  | cons r rest ih =>
    rcases List.mem_cons.mp h with rfl | h
    · simp only [maxColWidth, List.map_cons, List.foldr_cons]
      exact Nat.le_max_left _ _
    · simp only [maxColWidth, List.map_cons, List.foldr_cons]
      exact Nat.le_trans (ih h) (Nat.le_max_right _ _)

theorem ljust_length (l : List Char) (w : Nat) (h : l.length ≤ w) :
    (ljust l w).length = w := by
  simp only [ljust, List.length_append, List.length_replicate]
  omega

/-! ### Claim theorem: C9 -/

/-- C9: for every non-empty table block, every rendered row (header,
divider and data rows alike) consists of exactly `colCount` cells each
padded to that column's width, the width of column `idx` is the maximum
trimmed cell length in that column across all rows, the divider row
consists of exactly width-many dashes per column, and one divider row is
inserted after the header (so the output has one more row than the
input). -/
theorem C9_table_layout (lines : List (List Char)) (hne : lines ≠ []) :
    (format_table_block lines).length = lines.length + 1 ∧
    (∀ r ∈ format_table_block lines, ∃ cells : List (List Char),
        r = '|' :: ' ' :: (List.intercalate (' ' :: '|' :: ' ' :: []) cells ++
          (' ' :: '|' :: [])) ∧
        cells.length = ((lines.map split_table_row).map List.length).foldl max 0 ∧
        (∀ idx, idx < ((lines.map split_table_row).map List.length).foldl max 0 →
          (cells.getD idx []).length = maxColWidth (lines.map split_table_row) idx)) ∧
    (format_table_block lines).getD 1 [] =
      '|' :: ' ' :: (List.intercalate (' ' :: '|' :: ' ' :: [])
        ((List.range (((lines.map split_table_row).map List.length).foldl max 0)).map
          (fun idx => List.replicate (maxColWidth (lines.map split_table_row) idx) '-'))
        ++ (' ' :: '|' :: [])) := by
  obtain ⟨l0, lrest, rfl⟩ := List.exists_cons_of_ne_nil hne
  set rows := (l0 :: lrest).map split_table_row with hrows
  set colCount := (rows.map List.length).foldl max 0 with hcol
  set widths := tableWidths colCount rows with hw
  have hrowsc : rows = split_table_row l0 :: lrest.map split_table_row := by
    simp [hrows]
  have hout : format_table_block (l0 :: lrest) =
      renderTableRow colCount widths (split_table_row l0) ::
        ('|' :: ' ' ::
          (List.intercalate (' ' :: '|' :: ' ' :: [])
            (widths.map (fun w => List.replicate w '-'))
          ++ (' ' :: '|' :: []))) ::
        (lrest.map split_table_row).map (renderTableRow colCount widths) := rfl
  have hwlen : widths.length = colCount := tableWidths_length colCount rows
  have hdivider : widths.map (fun w => List.replicate w '-') =
      (List.range colCount).map
        (fun idx => List.replicate (maxColWidth rows idx) '-') := by
    apply List.ext_getElem
    · simp [hwlen]
    · intro i h1 h2
      rw [List.getElem_map, List.getElem_map, List.getElem_range]
      have hi : i < colCount := by simpa [hwlen] using h1
      have : widths[i] = widths.getD i 0 := by
        rw [List.getD_eq_getElem widths 0 (by simpa [hwlen] using hi)]
      rw [this, hw, tableWidths_getD colCount rows i hi]
  have hrender : ∀ row, row ∈ rows →
      ∃ cells : List (List Char),
        renderTableRow colCount widths row =
          '|' :: ' ' :: (List.intercalate (' ' :: '|' :: ' ' :: []) cells ++
            (' ' :: '|' :: [])) ∧
        cells.length = colCount ∧
        (∀ idx, idx < colCount →
          (cells.getD idx []).length = maxColWidth rows idx) := by
    intro row hrow
    refine ⟨(List.range colCount).map
      (fun idx => ljust (cellAt row idx) (widths.getD idx 0)), rfl, by simp, ?_⟩
    intro idx hidx
    rw [getD_range_map _ _ _ _ hidx]
    rw [hw, tableWidths_getD colCount rows idx hidx]
    exact ljust_length _ _ (cellAt_le_maxColWidth rows row hrow idx)
  refine ⟨?_, ?_, ?_⟩
  · rw [hout]
    simp
  · intro r hr
    rw [hout] at hr
    rcases List.mem_cons.mp hr with rfl | hr
    · exact hrender _ (by rw [hrowsc]; exact List.mem_cons_self _ _)
    · rcases List.mem_cons.mp hr with rfl | hr
      · refine ⟨widths.map (fun w => List.replicate w '-'), rfl, by simp [hwlen], ?_⟩
        intro idx hidx
        rw [getD_map_lt _ _ _ (by simpa [hwlen] using hidx) _ 0]
        simp only [List.length_replicate]
        rw [hw, tableWidths_getD colCount rows idx hidx]
      · rw [List.mem_map] at hr
        obtain ⟨row, hrow, rfl⟩ := hr
        exact hrender _ (by rw [hrowsc]; exact List.mem_cons_of_mem _ hrow)
  · rw [hout]
    simp only [List.getD_cons_succ, List.getD_cons_zero]
    rw [hdivider]

theorem C9_table_layout_witness :
    (('a' :: '|' :: 'b' :: 'b' :: []) :: ('1' :: '|' :: '2' :: []) :: []) ≠ [] ∧
    (format_table_block
        (('a' :: '|' :: 'b' :: 'b' :: []) :: ('1' :: '|' :: '2' :: []) :: [])).length =
      (('a' :: '|' :: 'b' :: 'b' :: []) :: ('1' :: '|' :: '2' :: []) :: []).length + 1 :=
  ⟨by decide, (C9_table_layout _ (by decide)).1⟩

/-! ### Lemmas about the block classifier: fenced state -/

theorem formatLines_inFence (rest : List (List Char)) :
    ∀ fuel, rest.length ≤ fuel →
      (∀ l ∈ rest, isFenceLine (splitTerminator l).1 = false) →
      formatLines fuel true rest =
        (rest.map (fun l => escape_markdown_v2_code (splitTerminator l).1 ++
          (splitTerminator l).2)).flatten := by
  induction rest with
  | nil =>
    intro fuel _ _
    cases fuel <;> rfl
  | cons line rs ih =>
    intro fuel hfuel hno
    match fuel, hfuel with
    | fuel + 1, hfuel =>
      simp only [formatLines]
      rw [if_neg (by rw [hno line (List.mem_cons_self _ _)]; simp)]
      rw [if_true]
      rw [ih fuel (by simpa using hfuel)
        (fun l hl => hno l (List.mem_cons_of_mem _ hl))]
      simp [List.append_assoc]

/-! ### Claim theorem: C8 -/

/-- C8: a document whose first line opens a fence that is never closed
renders every later line — including the final one — through
`escape_markdown_v2_code` only (terminators kept, no inline tokenization,
no table detection); and in general, from inside a fence, any tail of
lines containing no fence marker is rendered exactly that way. -/
theorem C8_unclosed_fence (text : List Char) (opener : List Char)
    (rest : List (List Char))
    (hsplit : pySplitlines text = opener :: rest)
    (hopen : isFenceLine (splitTerminator opener).1 = true)
    (hrest : ∀ l ∈ rest, isFenceLine (splitTerminator l).1 = false) :
    format_for_markdown_v2 text =
      (splitTerminator opener).1 ++ ((splitTerminator opener).2 ++
        (rest.map (fun l => escape_markdown_v2_code (splitTerminator l).1 ++
          (splitTerminator l).2)).flatten) ∧
    (∀ fuel (lines : List (List Char)), lines.length ≤ fuel →
      (∀ l ∈ lines, isFenceLine (splitTerminator l).1 = false) →
      formatLines fuel true lines =
        (lines.map (fun l => escape_markdown_v2_code (splitTerminator l).1 ++
          (splitTerminator l).2)).flatten) := by
  constructor
  · unfold format_for_markdown_v2
    rw [hsplit]
    simp only [List.length_cons, formatLines, Bool.not_false]
    rw [if_pos hopen]
    rw [formatLines_inFence rest rest.length (Nat.le_refl _) hrest]
    simp [List.append_assoc]
  · intro fuel lines h1 h2
    exact formatLines_inFence lines fuel h1 h2

theorem C8_unclosed_fence_witness :
    pySplitlines (backquote :: backquote :: backquote :: '\n' :: 'x' :: '\n' :: []) =
      (backquote :: backquote :: backquote :: '\n' :: []) :: ('x' :: '\n' :: []) :: [] ∧
    isFenceLine (splitTerminator (backquote :: backquote :: backquote :: '\n' :: [])).1 = true ∧
    (∀ l ∈ [('x' :: '\n' :: [])], isFenceLine (splitTerminator l).1 = false) ∧
    format_for_markdown_v2 (backquote :: backquote :: backquote :: '\n' :: 'x' :: '\n' :: []) =
      (splitTerminator (backquote :: backquote :: backquote :: '\n' :: [])).1 ++
        ((splitTerminator (backquote :: backquote :: backquote :: '\n' :: [])).2 ++
        (([('x' :: '\n' :: [])]).map
          (fun l => escape_markdown_v2_code (splitTerminator l).1 ++
            (splitTerminator l).2)).flatten) :=
  ⟨by decide, by decide, by decide,
   (C8_unclosed_fence _ _ _ (by decide) (by decide) (by decide)).1⟩

/-! ### Lemmas about the inline tokenizer -/

theorem isPrefixOf_self (l : List Char) : l.isPrefixOf l = true := by
  simp [List.isPrefixOf_iff_prefix]

theorem findCloser_cons (m : List Char) (c : Char) (rest : List Char) :
    findCloser m (c :: rest) =
      if c = '\n' then none
      else if m.isPrefixOf rest then some ([c], 1 + m.length)
      else
        match findCloser m rest with
        | some (content, n) => some (c :: content, n + 1)
        | none => none := rfl

theorem findCloser_star_marker (m : List Char) :
    ∀ (x : List Char), x ≠ [] → (∀ c ∈ x, ¬c = '*' ∧ ¬c = '\n') →
      findCloser ('*' :: m) (x ++ ('*' :: m)) =
        some (x, x.length + (m.length + 1)) := by
  intro x
  induction x with
  | nil => intro h _; exact absurd rfl h
  | cons a x' ih =>
    intro _ hx
    obtain ⟨has, hanl⟩ := hx a (List.mem_cons_self _ _)
    rw [List.cons_append, findCloser_cons, if_neg hanl]
    cases x' with
    | nil =>
      rw [List.nil_append, if_pos (isPrefixOf_self ('*' :: m))]
      simp
    | cons b x'' =>
      obtain ⟨hbs, _⟩ := hx b (List.mem_cons_of_mem _ (List.mem_cons_self _ _))
      have hpref : ('*' :: m).isPrefixOf ((b :: x'') ++ ('*' :: m)) = false := by
        rw [List.cons_append]
        simp only [List.isPrefixOf_cons₂]
        have hb : ('*' == b) = false := by
          simp only [beq_eq_false_iff_ne, ne_eq]
          intro h
          exact hbs h.symm
        rw [hb]
        rfl
      rw [if_neg (by rw [hpref]; simp)]
      have hrec := ih (by simp) (fun c hc => hx c (List.mem_cons_of_mem _ hc))
      rw [hrec]
      simp only [Option.some.injEq, Prod.mk.injEq, List.length_cons, true_and]
      omega

theorem tryToken_bold_italic (x : List Char) (hx : x ≠ [])
    (hxs : ∀ c ∈ x, ¬c = '*' ∧ ¬c = '\n') (prev : Option Char) :
    tryToken prev '*' ('*' :: '*' :: (x ++ ('*' :: '*' :: '*' :: []))) =
      some ('*' :: '_' :: (escape_markdown_v2 x ++ ('_' :: '*' :: [])), '*',
            2 + (x.length + 3)) := by
  have h1 : matchLink '*' ('*' :: '*' :: (x ++ ('*' :: '*' :: '*' :: []))) = none := rfl
  have h2 : matchCode '*' ('*' :: '*' :: (x ++ ('*' :: '*' :: '*' :: []))) = none := rfl
  have h3 : matchBoldItalic '*' ('*' :: '*' :: (x ++ ('*' :: '*' :: '*' :: []))) =
      some ('*' :: '_' :: (escape_markdown_v2 x ++ ('_' :: '*' :: [])), '*',
            2 + (x.length + 3)) := by
    have hc := findCloser_star_marker ('*' :: '*' :: []) x hx hxs
    simp only [matchBoldItalic, hc]
    simp
  simp only [tryToken, h1, h2, h3]

theorem format_inline_bold_italic (x : List Char) (hx : x ≠ [])
    (hxs : ∀ c ∈ x, ¬c = '*' ∧ ¬c = '\n') :
    format_inline ('*' :: '*' :: '*' :: (x ++ ('*' :: '*' :: '*' :: []))) =
      '*' :: '_' :: (escape_markdown_v2 x ++ ('_' :: '*' :: [])) := by
  unfold format_inline
  simp only [List.length_cons, inlineGo]
  rw [tryToken_bold_italic x hx hxs]
  have hdrop : ('*' :: '*' :: (x ++ ('*' :: '*' :: '*' :: []))).drop
      (2 + (x.length + 3)) = [] := by
    apply List.drop_eq_nil_of_le
    simp [List.length_append]
    omega
  simp only [hdrop, inlineGo]
  simp [escape_markdown_v2]

theorem format_inline_code (y : List Char) (hy : y ≠ [])
    (hyc : ∀ c ∈ y, ¬c = backquote) :
    format_inline (backquote :: (y ++ (backquote :: []))) =
      backquote :: (escape_markdown_v2_code y ++ (backquote :: [])) := by
  have h1 : matchLink backquote (y ++ (backquote :: [])) = none := rfl
  have h2 : matchCode backquote (y ++ (backquote :: [])) =
      some (backquote :: (escape_markdown_v2_code y ++ (backquote :: [])), backquote,
        y.length + 1) := by
    have htw : (y ++ (backquote :: [])).takeWhile (fun x => !(x = backquote)) = y := by
      rw [List.takeWhile_append_of_pos (by intro a ha; simp [hyc a ha])]
      simp
    have hye : y.isEmpty = false := by
      simp [List.isEmpty_iff, hy]
    have hdrop : (y ++ (backquote :: [])).drop y.length = backquote :: [] :=
      List.drop_left y (backquote :: [])
    simp only [matchCode, htw, hye, hdrop]
    simp
  unfold format_inline
  simp only [List.length_cons, inlineGo]
  rw [show tryToken none backquote (y ++ (backquote :: [])) =
      some (backquote :: (escape_markdown_v2_code y ++ (backquote :: [])), backquote,
        y.length + 1) by simp only [tryToken, h1, h2]]
  have hdrop2 : (y ++ (backquote :: [])).drop (y.length + 1) = [] := by
    apply List.drop_eq_nil_of_le
    simp
  simp only [hdrop2, inlineGo]
  simp [escape_markdown_v2]

theorem format_inline_link (d w : List Char) (hd : d ≠ [])
    (hdc : ∀ c ∈ d, ¬c = ']') (hw : w ≠ [])
    (hwc : ∀ c ∈ w, pySpace c = false ∧ ¬c = ')') :
    format_inline ('[' :: (d ++ (']' :: '(' :: ('h' :: 't' :: 't' :: 'p' :: ':' ::
        '/' :: '/' :: (w ++ (')' :: [])))))) =
      '[' :: (escape_markdown_v2 d ++ (']' :: '(' ::
        (escape_markdown_v2_url ('h' :: 't' :: 't' :: 'p' :: ':' :: '/' :: '/' :: w)
          ++ (')' :: [])))) := by
  have hlink : matchLink '[' (d ++ (']' :: '(' :: ('h' :: 't' :: 't' :: 'p' :: ':' ::
      '/' :: '/' :: (w ++ (')' :: []))))) =
      some ('[' :: (escape_markdown_v2 d ++ (']' :: '(' ::
          (escape_markdown_v2_url ('h' :: 't' :: 't' :: 'p' :: ':' :: '/' :: '/' :: w)
            ++ (')' :: [])))),
        ')', d.length + 2 + 7 + w.length + 1) := by
    have htw : (d ++ (']' :: '(' :: ('h' :: 't' :: 't' :: 'p' :: ':' ::
        '/' :: '/' :: (w ++ (')' :: []))))).takeWhile (fun x => !(x = ']')) = d := by
      rw [List.takeWhile_append_of_pos (by intro a ha; simp [hdc a ha])]
      simp
    have hde : d.isEmpty = false := by
      simp [List.isEmpty_iff, hd]
    have hdl : (d ++ (']' :: '(' :: ('h' :: 't' :: 't' :: 'p' :: ':' ::
        '/' :: '/' :: (w ++ (')' :: []))))).drop d.length =
        ']' :: '(' :: ('h' :: 't' :: 't' :: 'p' :: ':' ::
        '/' :: '/' :: (w ++ (')' :: []))) := List.drop_left _ _
    have hscheme : schemeLength (('h' : Char) :: 't' :: 't' :: 'p' :: ':' ::
        '/' :: '/' :: (w ++ (')' :: []))) = some 7 := rfl
    have hdrop7 : (('h' : Char) :: 't' :: 't' :: 'p' :: ':' ::
        '/' :: '/' :: (w ++ (')' :: []))).drop 7 = w ++ (')' :: []) := rfl
    have htw2 : (w ++ (')' :: [])).takeWhile urlBodyChar = w := by
      rw [List.takeWhile_append_of_pos
        (by intro a ha; simp [urlBodyChar, (hwc a ha).1, (hwc a ha).2])]
      simp [urlBodyChar]
    have hwe : w.isEmpty = false := by
      simp [List.isEmpty_iff, hw]
    have hdl2 : (w ++ (')' :: [])).drop w.length = ')' :: [] := List.drop_left _ _
    have htake7 : (('h' : Char) :: 't' :: 't' :: 'p' :: ':' ::
        '/' :: '/' :: (w ++ (')' :: []))).take 7 =
        ('h' : Char) :: 't' :: 't' :: 'p' :: ':' :: '/' :: '/' :: [] := rfl
    simp only [matchLink, htw, hde, hdl, hscheme, hdrop7, htw2, hwe, hdl2, htake7]
    simp
  unfold format_inline
  simp only [List.length_cons, inlineGo]
  rw [show tryToken none '[' (d ++ (']' :: '(' :: ('h' :: 't' :: 't' :: 'p' :: ':' ::
      '/' :: '/' :: (w ++ (')' :: []))))) =
      some ('[' :: (escape_markdown_v2 d ++ (']' :: '(' ::
          (escape_markdown_v2_url ('h' :: 't' :: 't' :: 'p' :: ':' :: '/' :: '/' :: w)
            ++ (')' :: [])))),
        ')', d.length + 2 + 7 + w.length + 1) by simp only [tryToken, hlink]]
  have hdrop : (d ++ (']' :: '(' :: ('h' :: 't' :: 't' :: 'p' :: ':' ::
      '/' :: '/' :: (w ++ (')' :: []))))).drop (d.length + 2 + 7 + w.length + 1) = [] := by
    apply List.drop_eq_nil_of_le
    simp [List.length_append]
    omega
  simp only [hdrop, inlineGo]
  simp [escape_markdown_v2]

/-! ### Claim theorem: C5 -/

/-- C5: the tokenizer's fixed priority order is observable: a whole line
`***x***` is taken by the triple-marker construct (before bold could
mis-parse it) and renders `*_x_*`; any construct inside backticks is
rendered as a code span (code wins over emphasis); and
`[display](http://...)` renders as a link (the link alternative wins over
the bare-URL rule for the same characters). -/
theorem C5_priority (x d w : List Char)
    (hx : x ≠ []) (hxs : ∀ c ∈ x, ¬c = '*' ∧ ¬c = '\n')
    (hd : d ≠ []) (hdc : ∀ c ∈ d, ¬c = ']')
    (hw : w ≠ []) (hwc : ∀ c ∈ w, pySpace c = false ∧ ¬c = ')') :
    format_inline ('*' :: '*' :: '*' :: (x ++ ('*' :: '*' :: '*' :: []))) =
      '*' :: '_' :: (escape_markdown_v2 x ++ ('_' :: '*' :: [])) ∧
    (∀ y, y ≠ [] → (∀ c ∈ y, ¬c = backquote) →
      format_inline (backquote :: (y ++ (backquote :: []))) =
        backquote :: (escape_markdown_v2_code y ++ (backquote :: []))) ∧
    format_inline ('[' :: (d ++ (']' :: '(' :: ('h' :: 't' :: 't' :: 'p' :: ':' ::
        '/' :: '/' :: (w ++ (')' :: [])))))) =
      '[' :: (escape_markdown_v2 d ++ (']' :: '(' ::
        (escape_markdown_v2_url ('h' :: 't' :: 't' :: 'p' :: ':' :: '/' :: '/' :: w)
          ++ (')' :: [])))) :=
  ⟨format_inline_bold_italic x hx hxs,
   fun y hy hyc => format_inline_code y hy hyc,
   format_inline_link d w hd hdc hw hwc⟩

theorem C5_priority_witness :
    (('x' :: []) ≠ [] ∧ (∀ c ∈ ('x' :: []), ¬c = '*' ∧ ¬c = '\n') ∧
     ('d' :: []) ≠ [] ∧ (∀ c ∈ ('d' :: []), ¬c = ']') ∧
     ('u' :: []) ≠ [] ∧ (∀ c ∈ ('u' :: []), pySpace c = false ∧ ¬c = ')')) ∧
    format_inline ('*' :: '*' :: '*' :: (('x' :: []) ++ ('*' :: '*' :: '*' :: []))) =
      '*' :: '_' :: (escape_markdown_v2 ('x' :: []) ++ ('_' :: '*' :: [])) :=
  ⟨⟨by decide, by decide, by decide, by decide, by decide, by decide⟩,
   (C5_priority ('x' :: []) ('d' :: []) ('u' :: []) (by decide) (by decide)
     (by decide) (by decide) (by decide) (by decide)).1⟩

/-! ### Lemmas about `splitTerminator` -/

theorem splitTerminator_append (l : List Char) :
    (splitTerminator l).1 ++ (splitTerminator l).2 = l := by
  have hl : l = l.reverse.reverse := by simp
  unfold splitTerminator
  split
  next x1 x2 bodyRev heq =>
    by_cases h1 : x1 = '\n' ∧ x2 = '\r'
    · rw [if_pos h1]
      obtain ⟨rfl, rfl⟩ := h1
      conv_rhs => rw [hl, heq]
      simp
    · rw [if_neg h1]
      by_cases h2 : x1 = '\n' ∨ x1 = '\r'
      · rw [if_pos h2]
        conv_rhs => rw [hl, heq]
        simp
      · rw [if_neg h2]
        simp
  next x1 heq =>
    by_cases h2 : x1 = '\n' ∨ x1 = '\r'
    · rw [if_pos h2]
      conv_rhs => rw [hl, heq]
      simp
    · rw [if_neg h2]
      simp
  next heq =>
    simp

theorem splitTerminator_body_none (body : List Char)
    (hfree : ∀ c ∈ body, isBreakChar c = false) :
    splitTerminator body = (body, []) := by
  unfold splitTerminator
  split
  next x1 x2 bodyRev heq =>
    have hx1 : x1 ∈ body := by
      have : x1 ∈ body.reverse := by rw [heq]; exact List.mem_cons_self _ _
      simpa using this
    have hfx1 := hfree x1 hx1
    have hnn : ¬(x1 = '\n' ∨ x1 = '\r') := by
      rintro (rfl | rfl) <;> simp [isBreakChar] at hfx1
    rw [if_neg (by rintro ⟨h, _⟩; exact hnn (Or.inl h)), if_neg hnn]
  next x1 heq =>
    have hx1 : x1 ∈ body := by
      have : x1 ∈ body.reverse := by rw [heq]; exact List.mem_cons_self _ _
      simpa using this
    have hfx1 := hfree x1 hx1
    have hnn : ¬(x1 = '\n' ∨ x1 = '\r') := by
      rintro (rfl | rfl) <;> simp [isBreakChar] at hfx1
    rw [if_neg hnn]
  next heq =>
    rfl

theorem splitTerminator_body_nl (body : List Char)
    (hfree : ∀ c ∈ body, isBreakChar c = false) :
    splitTerminator (body ++ ['\n']) = (body, ['\n']) := by
  unfold splitTerminator
  split
  next x1 x2 bodyRev heq =>
    rw [List.reverse_append] at heq
    simp only [List.reverse_cons, List.reverse_nil, List.nil_append,
      List.singleton_append, List.cons.injEq] at heq
    obtain ⟨rfl, heq2⟩ := heq
    have hx2 : x2 ∈ body := by
      have : x2 ∈ body.reverse := by rw [heq2]; exact List.mem_cons_self _ _
      simpa using this
    have hfx2 := hfree x2 hx2
    have hne : ¬('\n' = '\n' ∧ x2 = '\r') := by
      rintro ⟨_, rfl⟩; simp [isBreakChar] at hfx2
    rw [if_neg hne, if_pos (Or.inl rfl)]
    rw [← heq2]
    simp
  next x1 heq =>
    rw [List.reverse_append] at heq
    simp only [List.reverse_cons, List.reverse_nil, List.nil_append,
      List.singleton_append] at heq
    cases hb : body.reverse with
    | nil =>
      have hbody : body = [] := by simpa using congrArg List.reverse hb
      subst hbody
      simp only [List.reverse_nil] at heq
      cases heq
      rw [if_pos (Or.inl rfl)]
    | cons y ys =>
      rw [hb] at heq
      cases heq
  next heq =>
    rw [List.reverse_append] at heq
    simp at heq

theorem splitTerminator_body_cr (body : List Char)
    (hfree : ∀ c ∈ body, isBreakChar c = false) :
    splitTerminator (body ++ ['\r']) = (body, ['\r']) := by
  unfold splitTerminator
  split
  next x1 x2 bodyRev heq =>
    rw [List.reverse_append] at heq
    simp only [List.reverse_cons, List.reverse_nil, List.nil_append,
      List.singleton_append, List.cons.injEq] at heq
    obtain ⟨rfl, heq2⟩ := heq
    have hne : ¬('\r' = '\n' ∧ x2 = '\r') := by
      rintro ⟨h, _⟩; cases h
    rw [if_neg hne, if_pos (Or.inr rfl)]
    rw [← heq2]
    simp
  next x1 heq =>
    rw [List.reverse_append] at heq
    simp only [List.reverse_cons, List.reverse_nil, List.nil_append,
      List.singleton_append] at heq
    cases hb : body.reverse with
    | nil =>
      have hbody : body = [] := by simpa using congrArg List.reverse hb
      subst hbody
      simp only [List.reverse_nil] at heq
      cases heq
      rw [if_pos (Or.inr rfl)]
    | cons y ys =>
      rw [hb] at heq
      cases heq
  next heq =>
    rw [List.reverse_append] at heq
    simp at heq

theorem splitTerminator_body_crnl (body : List Char) :
    splitTerminator (body ++ ['\r', '\n']) = (body, ['\r', '\n']) := by
  unfold splitTerminator
  split
  next x1 x2 bodyRev heq =>
    rw [List.reverse_append] at heq
    simp only [List.reverse_cons, List.reverse_nil, List.nil_append,
      List.cons_append, List.cons.injEq] at heq
    obtain ⟨rfl, rfl, heq2⟩ := heq
    rw [if_pos ⟨rfl, rfl⟩]
    rw [← heq2]
    simp
  next x1 heq =>
    exfalso
    rw [List.reverse_append] at heq
    have : ([('\r' : Char), '\n'].reverse ++ body.reverse).length = 1 := by
      rw [heq]; rfl
    simp at this
  next heq =>
    exfalso
    rw [List.reverse_append] at heq
    have : ([('\r' : Char), '\n'].reverse ++ body.reverse).length = 0 := by
      rw [heq]; rfl
    simp at this

/-! ### Structure of `pySplitlines` output -/

theorem splitlinesGo_chars (acc : List Char) (l : List Char) :
    ∀ line ∈ splitlinesGo acc l, ∀ c ∈ line, c ∈ acc ∨ c ∈ l := by
  induction acc, l using splitlinesGo.induct with
  | case1 acc h =>
    rw [List.isEmpty_iff] at h
    subst h
    simp [splitlinesGo]
  | case2 acc h =>
    intro line hline c hc
    simp only [splitlinesGo, if_neg h, List.mem_singleton] at hline
    subst hline
    left
    simpa using hc
  | case3 acc rest2 ih =>
    intro line hline c hc
    simp only [splitlinesGo] at hline
    rcases List.mem_cons.mp hline with rfl | hline
    · rcases List.mem_append.mp hc with hc | hc
      · left; simpa using hc
      · right; simp at hc; rcases hc with rfl | rfl <;> simp
    · rcases ih line hline c hc with h | h
      · simp at h
      · right; simp [h]
  | case4 acc d rest2 hd ih =>
    intro line hline c hc
    simp only [splitlinesGo, if_neg hd] at hline
    rcases List.mem_cons.mp hline with rfl | hline
    · rcases List.mem_append.mp hc with hc | hc
      · left; simpa using hc
      · right; simp at hc; simp [hc]
    · rcases ih line hline c hc with h | h
      · simp at h
      · right
        rcases List.mem_cons.mp h with rfl | h2
        · simp
        · simp [h2]
  | case5 acc =>
    intro line hline c hc
    simp only [splitlinesGo, if_true, List.mem_singleton] at hline
    subst hline
    rcases List.mem_append.mp hc with hc | hc
    · left; simpa using hc
    · right; simp at hc; simp [hc]
  | case6 acc c0 rest hc0 hbrk ih =>
    intro line hline c hc
    rw [splitlinesGo.eq_def] at hline
    simp only [if_neg hc0, hbrk, if_pos] at hline
    rcases List.mem_cons.mp hline with rfl | hline
    · rcases List.mem_append.mp hc with hc | hc
      · left; simpa using hc
      · right; simp at hc; simp [hc]
    · rcases ih line (by simpa using hline) c hc with h | h
      · simp at h
      · right; simp [h]
  | case7 acc c0 rest hc0 hbrk ih =>
    intro line hline c hc
    rw [splitlinesGo.eq_def] at hline
    simp only [if_neg hc0, hbrk] at hline
    rcases ih line (by simpa using hline) c hc with h | h
    · rcases List.mem_cons.mp h with rfl | h
      · right; simp
      · left; exact h
    · right; simp [h]

theorem head?_append_cons {a : List Char} (c : Char) (t1 t2 : List Char) :
    (a ++ (c :: t1)).head? = (a ++ (c :: t2)).head? := by
  cases a <;> simp

theorem splitlinesGo_head (acc : List Char) (l : List Char) :
    ∀ line rest', splitlinesGo acc l = line :: rest' →
      line.head? = (acc.reverse ++ l).head? := by
  induction acc, l using splitlinesGo.induct with
  | case1 acc h =>
    rw [List.isEmpty_iff] at h
    subst h
    intro line rest' hl
    simp [splitlinesGo] at hl
  | case2 acc h =>
    intro line rest' hl
    simp only [splitlinesGo, if_neg h, List.cons.injEq] at hl
    obtain ⟨rfl, _⟩ := hl
    simp
  | case3 acc rest2 ih =>
    intro line rest' hl
    simp only [splitlinesGo, List.cons.injEq] at hl
    obtain ⟨rfl, _⟩ := hl
    exact head?_append_cons '\r' ['\n'] ('\n' :: rest2)
  | case4 acc d rest2 hd ih =>
    intro line rest' hl
    simp only [splitlinesGo, if_neg hd, List.cons.injEq] at hl
    obtain ⟨rfl, _⟩ := hl
    exact head?_append_cons '\r' [] (d :: rest2)
  | case5 acc =>
    intro line rest' hl
    simp only [splitlinesGo, if_true, List.cons.injEq] at hl
    obtain ⟨rfl, _⟩ := hl
    exact head?_append_cons '\r' [] []
  | case6 acc c0 rest hc0 hbrk ih =>
    intro line rest' hl
    rw [splitlinesGo.eq_def] at hl
    simp only [if_neg hc0, hbrk, if_pos, List.cons.injEq] at hl
    obtain ⟨rfl, _⟩ := hl
    exact head?_append_cons c0 [] rest
  | case7 acc c0 rest hc0 hbrk ih =>
    intro line rest' hl
    rw [splitlinesGo.eq_def] at hl
    simp only [if_neg hc0, hbrk] at hl
    have := ih line rest' (by simpa using hl)
    rw [this]
    simp

theorem splitlinesGo_good (acc : List Char) (l : List Char) :
    (∀ c ∈ l, isBreakChar c = true → c = '\n' ∨ c = '\r') →
    (∀ c ∈ acc, isBreakChar c = false) →
    GoodLines (splitlinesGo acc l) := by
  induction acc, l using splitlinesGo.induct with
  | case1 acc h =>
    intro _ _
    rw [List.isEmpty_iff] at h
    subst h
    simp [splitlinesGo, GoodLines]
  | case2 acc h =>
    intro _ hacc
    have hfree : ∀ c ∈ acc.reverse, isBreakChar c = false := by
      intro c hc; exact hacc c (by simpa using hc)
    simp only [splitlinesGo, if_neg h, GoodLines]
    refine ⟨⟨?_, ?_, ?_⟩, ?_, ?_, trivial⟩
    · intro hrev
      apply h
      rw [List.isEmpty_iff]
      simpa using hrev
    · rw [splitTerminator_body_none _ hfree]
      exact hfree
    · rw [splitTerminator_body_none _ hfree]
      right; right; right; rfl
    · intro hne; exact absurd rfl hne
    · rw [splitTerminator_body_none _ hfree]
      intro hcon
      simp at hcon
  | case3 acc rest2 ih =>
    intro hl hacc
    have hfree : ∀ c ∈ acc.reverse, isBreakChar c = false := by
      intro c hc; exact hacc c (by simpa using hc)
    have hsp : splitTerminator (acc.reverse ++ ['\r', '\n']) =
        (acc.reverse, ['\r', '\n']) := by
      have : acc.reverse ++ ['\r', '\n'] = acc.reverse ++ ['\r', '\n'] := rfl
      exact splitTerminator_body_crnl acc.reverse
    simp only [splitlinesGo, GoodLines]
    refine ⟨⟨by simp, ?_, ?_⟩, ?_, ?_, ?_⟩
    · rw [hsp]; exact hfree
    · rw [hsp]; right; right; left; rfl
    · intro _; rw [hsp]; simp
    · rw [hsp]; intro hcon; simp at hcon
    · exact ih (fun c hc h => hl c (by simp [hc]) h) (by simp)
  | case4 acc d rest2 hd ih =>
    intro hl hacc
    have hfree : ∀ c ∈ acc.reverse, isBreakChar c = false := by
      intro c hc; exact hacc c (by simpa using hc)
    have hsp : splitTerminator (acc.reverse ++ ['\r']) = (acc.reverse, ['\r']) :=
      splitTerminator_body_cr acc.reverse hfree
    simp only [splitlinesGo, if_neg hd, GoodLines]
    refine ⟨⟨by simp, ?_, ?_⟩, ?_, ?_, ?_⟩
    · rw [hsp]; exact hfree
    · rw [hsp]; right; left; rfl
    · intro _; rw [hsp]; simp
    · rw [hsp]
      intro _ l2 hl2
      cases hrec : splitlinesGo [] (d :: rest2) with
      | nil => rw [hrec] at hl2; simp at hl2
      | cons a b =>
        rw [hrec] at hl2
        simp only [List.head?_cons, Option.mem_def, Option.some.injEq] at hl2
        subst hl2
        have hha := splitlinesGo_head [] (d :: rest2) a b hrec
        rw [hha]
        simp only [List.reverse_nil, List.nil_append, List.head?_cons]
        intro hcon
        rw [Option.some.injEq] at hcon
        exact hd hcon
    · exact ih (fun c hc h => hl c (List.mem_cons_of_mem _ hc) h) (by simp)
  | case5 acc =>
    intro hl hacc
    have hfree : ∀ c ∈ acc.reverse, isBreakChar c = false := by
      intro c hc; exact hacc c (by simpa using hc)
    have hsp : splitTerminator (acc.reverse ++ ['\r']) = (acc.reverse, ['\r']) :=
      splitTerminator_body_cr acc.reverse hfree
    simp only [splitlinesGo, if_true, GoodLines]
    refine ⟨⟨by simp, ?_, ?_⟩, ?_, ?_, trivial⟩
    · rw [hsp]; exact hfree
    · rw [hsp]; right; left; rfl
    · intro hne; exact absurd rfl hne
    · rw [hsp]
      intro _ l2 hl2
      simp at hl2
  | case6 acc c0 rest hc0 hbrk ih =>
    intro hl hacc
    have hfree : ∀ c ∈ acc.reverse, isBreakChar c = false := by
      intro c hc; exact hacc c (by simpa using hc)
    have hc0n : c0 = '\n' := by
      rcases hl c0 (List.mem_cons_self _ _) hbrk with h | h
      · exact h
      · exact absurd h hc0
    subst hc0n
    have hsp : splitTerminator (acc.reverse ++ ['\n']) = (acc.reverse, ['\n']) :=
      splitTerminator_body_nl acc.reverse hfree
    rw [splitlinesGo.eq_def]
    simp only [if_neg hc0, hbrk, if_pos]
    simp only [GoodLines]
    refine ⟨⟨by simp, ?_, ?_⟩, ?_, ?_, ?_⟩
    · rw [hsp]; exact hfree
    · rw [hsp]; left; rfl
    · intro _; rw [hsp]; simp
    · rw [hsp]; intro hcon; simp at hcon
    · exact ih (fun c hc h => hl c (by simp [hc]) h) (by simp)
  | case7 acc c0 rest hc0 hbrk ih =>
    intro hl hacc
    rw [splitlinesGo.eq_def]
    simp only [if_neg hc0, hbrk]
    exact ih (fun c hc h => hl c (by simp [hc]) h)
      (by
        intro c hc
        rcases List.mem_cons.mp hc with rfl | hc
        · simpa using hbrk
        · exact hacc c hc)

theorem pySplitlines_good (text : List Char)
    (hbr : ∀ c ∈ text, isBreakChar c = true → c = '\n' ∨ c = '\r') :
    GoodLines (pySplitlines text) :=
  splitlinesGo_good [] text hbr (by simp)

/-! ### The transform introduces no line-break characters -/

theorem escape_markdown_v2_chars :
    ∀ l, ∀ c ∈ escape_markdown_v2 l, c = '\\' ∨ c ∈ l := by
  intro l
  induction l with
  | nil => simp [escape_markdown_v2]
  | cons a rest ih =>
    intro c hc
    simp only [escape_markdown_v2] at hc
    split at hc
    · rcases List.mem_cons.mp hc with rfl | hc
      · left; rfl
      · rcases List.mem_cons.mp hc with rfl | hc
        · right; exact List.mem_cons_self _ _
        · rcases ih c hc with h | h
          · left; exact h
          · right; exact List.mem_cons_of_mem _ h
    · rcases List.mem_cons.mp hc with rfl | hc
      · right; exact List.mem_cons_self _ _
      · rcases ih c hc with h | h
        · left; exact h
        · right; exact List.mem_cons_of_mem _ h

theorem escape_markdown_v2_url_chars :
    ∀ l, ∀ c ∈ escape_markdown_v2_url l, c = '\\' ∨ c ∈ l := by
  intro l
  induction l with
  | nil => simp [escape_markdown_v2_url]
  | cons a rest ih =>
    intro c hc
    simp only [escape_markdown_v2_url] at hc
    split at hc
    · rcases List.mem_cons.mp hc with rfl | hc
      · left; rfl
      · rcases List.mem_cons.mp hc with rfl | hc
        · right; exact List.mem_cons_self _ _
        · rcases ih c hc with h | h
          · left; exact h
          · right; exact List.mem_cons_of_mem _ h
    · rcases List.mem_cons.mp hc with rfl | hc
      · right; exact List.mem_cons_self _ _
      · rcases ih c hc with h | h
        · left; exact h
        · right; exact List.mem_cons_of_mem _ h

theorem pyReplaceChar_chars (old : Char) (new : List Char) :
    ∀ l, ∀ c ∈ pyReplaceChar old new l, c ∈ new ∨ c ∈ l := by
  intro l
  induction l with
  | nil => simp [pyReplaceChar]
  | cons a rest ih =>
    intro c hc
    simp only [pyReplaceChar] at hc
    split at hc
    · rcases List.mem_append.mp hc with hc | hc
      · left; exact hc
      · rcases ih c hc with h | h
        · left; exact h
        · right; exact List.mem_cons_of_mem _ h
    · rcases List.mem_cons.mp hc with rfl | hc
      · right; exact List.mem_cons_self _ _
      · rcases ih c hc with h | h
        · left; exact h
        · right; exact List.mem_cons_of_mem _ h

theorem escape_markdown_v2_code_chars :
    ∀ l, ∀ c ∈ escape_markdown_v2_code l, c = '\\' ∨ c = backquote ∨ c ∈ l := by
  intro l c hc
  unfold escape_markdown_v2_code at hc
  rcases pyReplaceChar_chars _ _ _ c hc with h | h
  · rcases List.mem_cons.mp h with rfl | h
    · left; rfl
    · right; left; simpa using h
  · rcases pyReplaceChar_chars _ _ _ c h with h2 | h2
    · left
      rcases List.mem_cons.mp h2 with rfl | h2
      · rfl
      · simpa using h2
    · right; right; exact h2

theorem escape_markdown_v2_ne_nil (l : List Char) (h : l ≠ []) :
    escape_markdown_v2 l ≠ [] := by
  cases l with
  | nil => exact absurd rfl h
  | cons a rest =>
    simp only [escape_markdown_v2]
    split <;> simp

theorem pyReplaceChar_ne_nil (old : Char) (new : List Char) (hn : new ≠ [])
    (l : List Char) (h : l ≠ []) : pyReplaceChar old new l ≠ [] := by
  cases l with
  | nil => exact absurd rfl h
  | cons a rest =>
    simp only [pyReplaceChar]
    split
    · simp [hn]
    · simp

theorem escape_markdown_v2_code_ne_nil (l : List Char) (h : l ≠ []) :
    escape_markdown_v2_code l ≠ [] := by
  unfold escape_markdown_v2_code
  apply pyReplaceChar_ne_nil _ _ (by simp)
  exact pyReplaceChar_ne_nil _ _ (by simp) _ h

theorem findCloser_chars (m : List Char) :
    ∀ l content n, findCloser m l = some (content, n) → ∀ c ∈ content, c ∈ l := by
  intro l
  induction l with
  | nil => intro content n h; simp [findCloser] at h
  | cons a rest ih =>
    intro content n h c hc
    rw [findCloser_cons] at h
    split at h
    · cases h
    · split at h
      · rw [Option.some.injEq, Prod.mk.injEq] at h
        obtain ⟨rfl, _⟩ := h
        rcases List.mem_singleton.mp hc with rfl
        exact List.mem_cons_self _ _
      · split at h
        next content' n' heq =>
          rw [Option.some.injEq, Prod.mk.injEq] at h
          obtain ⟨rfl, _⟩ := h
          rcases List.mem_cons.mp hc with rfl | hc
          · exact List.mem_cons_self _ _
          · exact List.mem_cons_of_mem _ (ih content' n' heq c hc)
        next heq => cases h

theorem mem_escape_or (l target : List Char) (hsub : ∀ c ∈ l, c ∈ target) :
    ∀ ch ∈ escape_markdown_v2 l, isBreakChar ch = false ∨ ch ∈ target := by
  intro ch hch
  rcases escape_markdown_v2_chars l ch hch with rfl | h
  · left; decide
  · right; exact hsub ch h

theorem mem_escape_url_or (l target : List Char) (hsub : ∀ c ∈ l, c ∈ target) :
    ∀ ch ∈ escape_markdown_v2_url l, isBreakChar ch = false ∨ ch ∈ target := by
  intro ch hch
  rcases escape_markdown_v2_url_chars l ch hch with rfl | h
  · left; decide
  · right; exact hsub ch h

theorem mem_escape_code_or (l target : List Char) (hsub : ∀ c ∈ l, c ∈ target) :
    ∀ ch ∈ escape_markdown_v2_code l, isBreakChar ch = false ∨ ch ∈ target := by
  intro ch hch
  rcases escape_markdown_v2_code_chars l ch hch with rfl | rfl | h
  · left; decide
  · left; decide
  · right; exact hsub ch h

theorem takeWhile_mem {p : Char → Bool} {l : List Char} :
    ∀ c ∈ l.takeWhile p, c ∈ l :=
  fun _ hc => (List.takeWhile_sublist p).subset hc

theorem matchLink_chars (c0 : Char) (rest r : List Char) (lst : Char) (k : Nat)
    (h : matchLink c0 rest = some (r, lst, k)) :
    r ≠ [] ∧ ∀ ch ∈ r, isBreakChar ch = false ∨ ch ∈ rest := by
  unfold matchLink at h
  split at h
  · dsimp only at h
    split at h
    · cases h
    · split at h
      next x1 x2 r2 heq =>
        split at h
        · split at h
          next sl hsl =>
            split at h
            · cases h
            · split at h
              next x3 rest3 heq2 =>
                split at h
                · rw [Option.some.injEq, Prod.mk.injEq] at h
                  obtain ⟨rfl, _⟩ := h
                  have hr2 : ∀ c ∈ r2, c ∈ rest := by
                    intro c hc
                    have : c ∈ rest.drop (rest.takeWhile
                        (fun x => !(x = ']'))).length := by
                      rw [heq]
                      exact List.mem_cons_of_mem _ (List.mem_cons_of_mem _ hc)
                    exact List.drop_subset _ _ this
                  have hd : ∀ c ∈ rest.takeWhile (fun x => !(x = ']')), c ∈ rest :=
                    takeWhile_mem
                  have hurl : ∀ c ∈ r2.take sl ++
                      (r2.drop sl).takeWhile urlBodyChar, c ∈ rest := by
                    intro c hc
                    rcases List.mem_append.mp hc with hc | hc
                    · exact hr2 c (List.take_subset _ _ hc)
                    · exact hr2 c (List.drop_subset _ _ (takeWhile_mem c hc))
                  refine ⟨by simp, ?_⟩
                  intro ch hch
                  rcases List.mem_cons.mp hch with rfl | hch
                  · left; decide
                  · rcases List.mem_append.mp hch with hch | hch
                    · exact mem_escape_or _ _ hd ch hch
                    · rcases List.mem_cons.mp hch with rfl | hch
                      · left; decide
                      · rcases List.mem_cons.mp hch with rfl | hch
                        · left; decide
                        · rcases List.mem_append.mp hch with hch | hch
                          · exact mem_escape_url_or _ _ hurl ch hch
                          · rcases List.mem_singleton.mp hch with rfl
                            left; decide
                · cases h
              next heq2 => cases h
          next hsl => cases h
        · cases h
      next heq => cases h
  · cases h

theorem matchCode_chars (c0 : Char) (rest r : List Char) (lst : Char) (k : Nat)
    (h : matchCode c0 rest = some (r, lst, k)) :
    r ≠ [] ∧ ∀ ch ∈ r, isBreakChar ch = false ∨ ch ∈ rest := by
  unfold matchCode at h
  split at h
  · dsimp only at h
    split at h
    · cases h
    · split at h
      next x rest3 heq =>
        split at h
        · rw [Option.some.injEq, Prod.mk.injEq] at h
          obtain ⟨rfl, _⟩ := h
          refine ⟨by simp, ?_⟩
          intro ch hch
          rcases List.mem_cons.mp hch with rfl | hch
          · left; decide
          · rcases List.mem_append.mp hch with hch | hch
            · exact mem_escape_code_or _ _ takeWhile_mem ch hch
            · rcases List.mem_singleton.mp hch with rfl
              left; decide
        · cases h
      next heq => cases h
  · cases h

theorem matchBoldItalic_chars (c0 : Char) (rest r : List Char) (lst : Char) (k : Nat)
    (h : matchBoldItalic c0 rest = some (r, lst, k)) :
    r ≠ [] ∧ ∀ ch ∈ r, isBreakChar ch = false ∨ ch ∈ rest := by
  unfold matchBoldItalic at h
  split at h
  next x1 x2 r3 =>
    split at h
    · split at h
      next content n heq =>
        rw [Option.some.injEq, Prod.mk.injEq] at h
        obtain ⟨rfl, _⟩ := h
        have hcont : ∀ c ∈ content, c ∈ x1 :: x2 :: r3 := by
          intro c hc
          exact List.mem_cons_of_mem _ (List.mem_cons_of_mem _
            (findCloser_chars _ _ _ _ heq c hc))
        refine ⟨by simp, ?_⟩
        intro ch hch
        rcases List.mem_cons.mp hch with rfl | hch
        · left; decide
        · rcases List.mem_cons.mp hch with rfl | hch
          · left; decide
          · rcases List.mem_append.mp hch with hch | hch
            · exact mem_escape_or _ _ hcont ch hch
            · rcases List.mem_cons.mp hch with rfl | hch
              · left; decide
              · rcases List.mem_singleton.mp hch with rfl
                left; decide
      next heq => cases h
    · cases h
  next => cases h

theorem matchBold_chars (c0 : Char) (rest r : List Char) (lst : Char) (k : Nat)
    (h : matchBold c0 rest = some (r, lst, k)) :
    r ≠ [] ∧ ∀ ch ∈ r, isBreakChar ch = false ∨ ch ∈ rest := by
  unfold matchBold at h
  split at h
  next x1 r2 =>
    split at h
    · split at h
      next content n heq =>
        rw [Option.some.injEq, Prod.mk.injEq] at h
        obtain ⟨rfl, _⟩ := h
        have hcont : ∀ c ∈ content, c ∈ x1 :: r2 := by
          intro c hc
          exact List.mem_cons_of_mem _ (findCloser_chars _ _ _ _ heq c hc)
        refine ⟨by simp, ?_⟩
        intro ch hch
        rcases List.mem_cons.mp hch with rfl | hch
        · left; decide
        · rcases List.mem_append.mp hch with hch | hch
          · exact mem_escape_or _ _ hcont ch hch
          · rcases List.mem_singleton.mp hch with rfl
            left; decide
      next heq => cases h
    · cases h
  next => cases h

theorem matchItalic_chars (prev : Option Char) (c0 : Char) (rest r : List Char)
    (lst : Char) (k : Nat)
    (h : matchItalic prev c0 rest = some (r, lst, k)) :
    r ≠ [] ∧ ∀ ch ∈ r, isBreakChar ch = false ∨ ch ∈ rest := by
  unfold matchItalic at h
  split at h
  · cases h
  · dsimp only at h
    split at h
    · split at h
      · cases h
      · split at h
        next x tail heq =>
          split at h
          · split at h
            · cases h
            · rw [Option.some.injEq, Prod.mk.injEq] at h
              obtain ⟨rfl, _⟩ := h
              refine ⟨by simp, ?_⟩
              intro ch hch
              rcases List.mem_cons.mp hch with rfl | hch
              · left; decide
              · rcases List.mem_append.mp hch with hch | hch
                · exact mem_escape_or _ _ takeWhile_mem ch hch
                · rcases List.mem_singleton.mp hch with rfl
                  left; decide
          · cases h
        next heq => cases h
    · cases h

theorem matchUrl_chars (c0 : Char) (rest r : List Char) (lst : Char) (k : Nat)
    (h : matchUrl c0 rest = some (r, lst, k)) :
    r ≠ [] ∧ ∀ ch ∈ r, isBreakChar ch = false ∨ ch ∈ c0 :: rest := by
  unfold matchUrl at h
  split at h
  next sl hsl =>
    dsimp only at h
    split at h
    · cases h
    · rw [Option.some.injEq, Prod.mk.injEq] at h
      obtain ⟨rfl, _⟩ := h
      have hurl : ∀ c ∈ (c0 :: rest).take sl ++
          ((c0 :: rest).drop sl).takeWhile (fun x => !pySpace x), c ∈ c0 :: rest := by
        intro c hc
        rcases List.mem_append.mp hc with hc | hc
        · exact List.take_subset _ _ hc
        · exact List.drop_subset _ _ (takeWhile_mem c hc)
      refine ⟨by simp, ?_⟩
      intro ch hch
      rcases List.mem_cons.mp hch with rfl | hch
      · left; decide
      · rcases List.mem_append.mp hch with hch | hch
        · exact mem_escape_or _ _ hurl ch hch
        · rcases List.mem_cons.mp hch with rfl | hch
          · left; decide
          · rcases List.mem_cons.mp hch with rfl | hch
            · left; decide
            · rcases List.mem_append.mp hch with hch | hch
              · exact mem_escape_url_or _ _ hurl ch hch
              · rcases List.mem_singleton.mp hch with rfl
                left; decide
  next => cases h

theorem tryToken_chars (prev : Option Char) (c0 : Char) (rest : List Char)
    (r : List Char) (lst : Char) (k : Nat)
    (h : tryToken prev c0 rest = some (r, lst, k)) :
    r ≠ [] ∧ ∀ ch ∈ r, isBreakChar ch = false ∨ ch ∈ c0 :: rest := by
  have weaken : (r ≠ [] ∧ ∀ ch ∈ r, isBreakChar ch = false ∨ ch ∈ rest) →
      r ≠ [] ∧ ∀ ch ∈ r, isBreakChar ch = false ∨ ch ∈ c0 :: rest := by
    rintro ⟨h1, h2⟩
    refine ⟨h1, ?_⟩
    intro ch hch
    rcases h2 ch hch with hh | hh
    · left; exact hh
    · right; exact List.mem_cons_of_mem _ hh
  unfold tryToken at h
  split at h
  next heq =>
    rw [Option.some.injEq] at h
    subst h
    exact weaken (matchLink_chars _ _ _ _ _ heq)
  next =>
    split at h
    next heq =>
      rw [Option.some.injEq] at h
      subst h
      exact weaken (matchCode_chars _ _ _ _ _ heq)
    next =>
      split at h
      next heq =>
        rw [Option.some.injEq] at h
        subst h
        exact weaken (matchBoldItalic_chars _ _ _ _ _ heq)
      next =>
        split at h
        next heq =>
          rw [Option.some.injEq] at h
          subst h
          exact weaken (matchBold_chars _ _ _ _ _ heq)
        next =>
          split at h
          next heq =>
            rw [Option.some.injEq] at h
            subst h
            exact weaken (matchItalic_chars _ _ _ _ _ _ heq)
          next =>
            exact matchUrl_chars _ _ _ _ _ h

theorem inlineGo_chars : ∀ (fuel : Nat) (prev : Option Char) (l pending : List Char),
    ∀ ch ∈ inlineGo fuel prev l pending,
      isBreakChar ch = false ∨ ch ∈ l ∨ ch ∈ pending := by
  intro fuel
  induction fuel with
  | zero =>
    intro prev l pending ch hch
    cases l with
    | nil =>
      simp only [inlineGo] at hch
      rcases escape_markdown_v2_chars _ ch hch with rfl | hh
      · left; decide
      · right; right; simpa using hh
    | cons c rest =>
      simp only [inlineGo] at hch
      rcases escape_markdown_v2_chars _ ch hch with rfl | hh
      · left; decide
      · rcases List.mem_append.mp hh with hh | hh
        · right; right; simpa using hh
        · right; left; exact hh
  | succ fuel ih =>
    intro prev l pending ch hch
    cases l with
    | nil =>
      simp only [inlineGo] at hch
      rcases escape_markdown_v2_chars _ ch hch with rfl | hh
      · left; decide
      · right; right; simpa using hh
    | cons c rest =>
      simp only [inlineGo] at hch
      split at hch
      next rendered lastc k heq =>
        rcases List.mem_append.mp hch with hch | hch
        · rcases List.mem_append.mp hch with hch | hch
          · rcases escape_markdown_v2_chars _ ch hch with rfl | hh
            · left; decide
            · right; right; simpa using hh
          · rcases (tryToken_chars _ _ _ _ _ _ heq).2 ch hch with hh | hh
            · left; exact hh
            · right; left; exact hh
        · rcases ih (some lastc) (rest.drop k) [] ch hch with hh | hh | hh
          · left; exact hh
          · right; left
            exact List.mem_cons_of_mem _ (List.drop_subset _ _ hh)
          · simp at hh
      next heq =>
        rcases ih (some c) rest (c :: pending) ch hch with hh | hh | hh
        · left; exact hh
        · right; left; exact List.mem_cons_of_mem _ hh
        · rcases List.mem_cons.mp hh with rfl | hh
          · right; left; exact List.mem_cons_self _ _
          · right; right; exact hh

theorem inlineGo_ne_nil : ∀ (fuel : Nat) (prev : Option Char) (l pending : List Char),
    l ≠ [] ∨ pending ≠ [] → inlineGo fuel prev l pending ≠ [] := by
  intro fuel
  induction fuel with
  | zero =>
    intro prev l pending h
    cases l with
    | nil =>
      simp only [inlineGo]
      apply escape_markdown_v2_ne_nil
      rcases h with h | h
      · exact absurd rfl h
      · simpa using h
    | cons c rest =>
      simp only [inlineGo]
      apply escape_markdown_v2_ne_nil
      simp
  | succ fuel ih =>
    intro prev l pending h
    cases l with
    | nil =>
      simp only [inlineGo]
      apply escape_markdown_v2_ne_nil
      rcases h with h | h
      · exact absurd rfl h
      · simpa using h
    | cons c rest =>
      simp only [inlineGo]
      split
      next rendered lastc k heq =>
        have hne := (tryToken_chars _ _ _ _ _ _ heq).1
        simp only [ne_eq, List.append_eq_nil]
        rintro ⟨⟨-, h2⟩, -⟩
        exact hne h2
      next heq =>
        exact ih (some c) rest (c :: pending) (Or.inr (by simp))

theorem format_inline_chars (text : List Char) :
    ∀ ch ∈ format_inline text, isBreakChar ch = false ∨ ch ∈ text := by
  intro ch hch
  rcases inlineGo_chars text.length none text [] ch hch with h | h | h
  · left; exact h
  · right; exact h
  · simp at h

theorem format_inline_ne_nil (text : List Char) (h : text ≠ []) :
    format_inline text ≠ [] :=
  inlineGo_ne_nil text.length none text [] (Or.inl h)

theorem parseCheckbox_snd_subset (b : List Char) :
    ∀ c ∈ (parseCheckbox b).2, c ∈ b := by
  unfold parseCheckbox
  split
  next x1 st x2 r3 =>
    split
    · dsimp only
      split
      · simp
      · intro c hc
        simp only at hc
        exact List.mem_cons_of_mem _ (List.mem_cons_of_mem _
          (List.mem_cons_of_mem _ (List.drop_subset _ _ hc)))
    · simp
  next => simp

theorem listMarkers_getD_nonbreak (n : Nat) :
    isBreakChar (listMarkers.getD n '—') = false := by
  rcases n with _ | _ | _ | _ | n
  · decide
  · decide
  · decide
  · decide
  · have : listMarkers.getD (n + 4) '—' = '—' := by
      rw [List.getD_eq_getElem?_getD]
      rw [List.getElem?_eq_none (by simp [listMarkers])]
      rfl
    rw [this]
    decide

theorem format_list_item_props (content s : List Char)
    (h : format_list_item content = some s) :
    s ≠ [] ∧ ∀ ch ∈ s, isBreakChar ch = false ∨ ch ∈ content := by
  unfold format_list_item at h
  dsimp only at h
  split at h
  next m r2 heq =>
    split at h
    · split at h
      · cases h
      · rw [Option.some.injEq] at h
        subst h
        have hr2 : ∀ c ∈ r2, c ∈ content := by
          intro c hc
          have : c ∈ content.drop (content.takeWhile
              (fun c => c = ' ' || c = '\t')).length := by
            rw [heq]
            exact List.mem_cons_of_mem _ hc
          exact List.drop_subset _ _ this
        have hbody : ∀ c ∈ (parseCheckbox (r2.drop (r2.takeWhile pySpace).length)).2,
            c ∈ content := by
          intro c hc
          exact hr2 c (List.drop_subset _ _ (parseCheckbox_snd_subset _ c hc))
        constructor
        · simp
        · intro ch hch
          rcases List.mem_append.mp hch with hch | hch
          · left
            rw [List.eq_of_mem_replicate hch]
            decide
          · rcases List.mem_cons.mp hch with rfl | hch
            · left
              exact listMarkers_getD_nonbreak _
            · rcases List.mem_cons.mp hch with rfl | hch
              · left; decide
              · rcases List.mem_append.mp hch with hch | hch
                · left
                  split at hch
                  · split at hch <;>
                      (rcases List.mem_cons.mp hch with rfl | hch
                       · decide
                       · rcases List.mem_singleton.mp hch with rfl; decide)
                  · simp at hch
                · rcases format_inline_chars _ ch hch with hh | hh
                  · left; exact hh
                  · right; exact hbody ch hh
    · cases h
  next => cases h

theorem format_line_chars (content : List Char) :
    ∀ ch ∈ format_line content, isBreakChar ch = false ∨ ch ∈ content := by
  unfold format_line
  split
  · intro ch hch
    left
    have hall : ∀ c ∈ hruleRender, isBreakChar c = false := by decide
    exact hall ch hch
  · split
    next s heq =>
      exact fun ch hch => (format_list_item_props content s heq).2 ch hch
    next heq =>
      have hsub2 : ∀ n, ∀ c ∈ pyLstrip (content.drop n), c ∈ content := by
        intro n c hc
        exact List.drop_subset _ _ ((List.dropWhile_sublist _).subset hc)
      split
      · intro ch hch
        rcases List.mem_cons.mp hch with rfl | hch
        · left; decide
        · rcases List.mem_cons.mp hch with rfl | hch
          · left; decide
          · rcases List.mem_cons.mp hch with rfl | hch
            · left; decide
            · rcases List.mem_append.mp hch with hch | hch
              · rcases format_inline_chars _ ch hch with hh | hh
                · left; exact hh
                · right; exact hsub2 2 ch hh
              · left
                have hall : ∀ c ∈ ['*', '_', '_'], isBreakChar c = false := by decide
                exact hall ch hch
      · split
        · intro ch hch
          rcases List.mem_cons.mp hch with rfl | hch
          · left; decide
          · rcases List.mem_append.mp hch with hch | hch
            · rcases format_inline_chars _ ch hch with hh | hh
              · left; exact hh
              · right; exact hsub2 3 ch hh
            · left
              rcases List.mem_singleton.mp hch with rfl
              decide
        · split
          · intro ch hch
            rcases List.mem_cons.mp hch with rfl | hch
            · left; decide
            · rcases List.mem_cons.mp hch with rfl | hch
              · left; decide
              · rcases List.mem_append.mp hch with hch | hch
                · rcases format_inline_chars _ ch hch with hh | hh
                  · left; exact hh
                  · right; exact hsub2 4 ch hh
                · left
                  have hall : ∀ c ∈ ['_', '_'], isBreakChar c = false := by decide
                  exact hall ch hch
          · split
            · intro ch hch
              rcases List.mem_cons.mp hch with rfl | hch
              · left; decide
              · rcases List.mem_cons.mp hch with rfl | hch
                · left; decide
                · rcases format_inline_chars _ ch hch with hh | hh
                  · left; exact hh
                  · right; exact hsub2 2 ch hh
            · intro ch hch
              rcases format_inline_chars _ ch hch with hh | hh
              · left; exact hh
              · right; exact hh

theorem format_line_ne_nil (content : List Char) (h : content ≠ []) :
    format_line content ≠ [] := by
  unfold format_line
  split
  · decide
  · split
    next s heq =>
      exact (format_list_item_props content s heq).1
    next heq =>
      split
      · simp
      · split
        · simp
        · split
          · simp
          · split
            · simp
            · exact format_inline_ne_nil content h

/-! ### `pySplitlines` over rendered output -/

theorem splitlinesGo_cons_nonbreak (acc : List Char) (c : Char) (rest : List Char)
    (hc : isBreakChar c = false) :
    splitlinesGo acc (c :: rest) = splitlinesGo (c :: acc) rest := by
  have hcr : ¬c = '\r' := by
    rintro rfl; simp [isBreakChar] at hc
  rw [splitlinesGo.eq_def]
  simp only [if_neg hcr, hc]
  rfl

theorem splitlinesGo_body_nl (body : List Char)
    (hfree : ∀ c ∈ body, isBreakChar c = false) :
    ∀ (acc out : List Char),
      splitlinesGo acc (body ++ '\n' :: out) =
        (acc.reverse ++ (body ++ ['\n'])) :: splitlinesGo [] out := by
  induction body with
  | nil =>
    intro acc out
    rw [List.nil_append, splitlinesGo.eq_def]
    simp [isBreakChar]
  | cons b body' ih =>
    intro acc out
    have hb : isBreakChar b = false := hfree b (List.mem_cons_self _ _)
    rw [List.cons_append, splitlinesGo_cons_nonbreak _ _ _ hb,
      ih (fun c hc => hfree c (List.mem_cons_of_mem _ hc))]
    simp

theorem splitlinesGo_body_crnl (body : List Char)
    (hfree : ∀ c ∈ body, isBreakChar c = false) :
    ∀ (acc out : List Char),
      splitlinesGo acc (body ++ '\r' :: '\n' :: out) =
        (acc.reverse ++ (body ++ ['\r', '\n'])) :: splitlinesGo [] out := by
  induction body with
  | nil =>
    intro acc out
    rw [List.nil_append, splitlinesGo.eq_def]
    simp
  | cons b body' ih =>
    intro acc out
    have hb : isBreakChar b = false := hfree b (List.mem_cons_self _ _)
    rw [List.cons_append, splitlinesGo_cons_nonbreak _ _ _ hb,
      ih (fun c hc => hfree c (List.mem_cons_of_mem _ hc))]
    simp

theorem splitlinesGo_body_cr (body : List Char)
    (hfree : ∀ c ∈ body, isBreakChar c = false) :
    ∀ (acc out : List Char), out.head? ≠ some '\n' →
      splitlinesGo acc (body ++ '\r' :: out) =
        (acc.reverse ++ (body ++ ['\r'])) :: splitlinesGo [] out := by
  induction body with
  | nil =>
    intro acc out hout
    cases out with
    | nil =>
      rw [List.nil_append, splitlinesGo.eq_def]
      simp [splitlinesGo]
    | cons d t =>
      have hd : ¬d = '\n' := by
        intro h
        subst h
        simp at hout
      rw [List.nil_append, splitlinesGo.eq_def]
      simp [hd]
  | cons b body' ih =>
    intro acc out hout
    have hb : isBreakChar b = false := hfree b (List.mem_cons_self _ _)
    rw [List.cons_append, splitlinesGo_cons_nonbreak _ _ _ hb,
      ih (fun c hc => hfree c (List.mem_cons_of_mem _ hc)) _ _ hout]
    simp

theorem splitlinesGo_body_only (body : List Char)
    (hfree : ∀ c ∈ body, isBreakChar c = false) :
    ∀ acc : List Char,
      splitlinesGo acc body =
        if (acc.reverse ++ body).isEmpty then [] else [acc.reverse ++ body] := by
  induction body with
  | nil =>
    intro acc
    simp only [splitlinesGo, List.append_nil]
    by_cases h : acc.isEmpty
    · rw [if_pos h, if_pos (by rw [List.isEmpty_iff] at h ⊢; simp [h])]
    · have hne : acc ≠ [] := by
        intro hcon
        subst hcon
        simp at h
      rw [if_neg h, if_neg (by simp [List.isEmpty_iff, hne])]
  | cons b body' ih =>
    intro acc
    have hb : isBreakChar b = false := hfree b (List.mem_cons_self _ _)
    rw [splitlinesGo_cons_nonbreak _ _ _ hb,
      ih (fun c hc => hfree c (List.mem_cons_of_mem _ hc))]
    have h1 : ((b :: acc).reverse ++ body').isEmpty = false := by
      rw [List.isEmpty_eq_false]
      simp
    have h2 : (acc.reverse ++ b :: body').isEmpty = false := by
      rw [List.isEmpty_eq_false]
      simp
    rw [if_neg (by simp [h1]), if_neg (by simp [h2])]
    simp

theorem lineTerminators_cons (body term out : List Char)
    (hfree : ∀ c ∈ body, isBreakChar c = false)
    (hterm : AllowedTerm term)
    (hlast : term = [] → out = [] ∧ body ≠ [])
    (hadj : term = ['\r'] → out.head? ≠ some '\n') :
    lineTerminators (body ++ term ++ out) = term :: lineTerminators out := by
  rcases hterm with rfl | rfl | rfl | rfl
  · unfold lineTerminators pySplitlines
    rw [List.append_assoc, List.singleton_append,
      splitlinesGo_body_nl body hfree [] out]
    simp only [List.reverse_nil, List.nil_append, List.map_cons]
    rw [splitTerminator_body_nl body hfree]
  · unfold lineTerminators pySplitlines
    rw [List.append_assoc, List.singleton_append,
      splitlinesGo_body_cr body hfree [] out (hadj rfl)]
    simp only [List.reverse_nil, List.nil_append, List.map_cons]
    rw [splitTerminator_body_cr body hfree]
  · unfold lineTerminators pySplitlines
    rw [List.append_assoc]
    have : (['\r', '\n'] : List Char) ++ out = '\r' :: '\n' :: out := rfl
    rw [this, splitlinesGo_body_crnl body hfree [] out]
    simp only [List.reverse_nil, List.nil_append, List.map_cons]
    rw [splitTerminator_body_crnl body]
  · obtain ⟨rfl, hbody⟩ := hlast rfl
    unfold lineTerminators pySplitlines
    simp only [List.append_nil]
    rw [splitlinesGo_body_only body hfree []]
    rw [if_neg (by simp [List.isEmpty_iff, hbody])]
    simp only [List.reverse_nil, List.nil_append, List.map_cons, List.map_nil]
    rw [splitTerminator_body_none body hfree]
    simp [splitlinesGo]

theorem head_append_free (a b : List Char) (hne : a ≠ [])
    (ha : ∀ c ∈ a, isBreakChar c = false) :
    (a ++ b).head? ≠ some '\n' := by
  cases a with
  | nil => exact absurd rfl hne
  | cons x xs =>
    simp only [List.cons_append, List.head?_cons]
    intro h
    rw [Option.some.injEq] at h
    have hx := ha x (List.mem_cons_self _ _)
    rw [h] at hx
    simp [isBreakChar] at hx

theorem head_append_term (t b : List Char) (ht : t.head? = some '\r') :
    (t ++ b).head? ≠ some '\n' := by
  cases t with
  | nil => simp at ht
  | cons x xs =>
    simp only [List.head?_cons, Option.some.injEq] at ht
    subst ht
    simp only [List.cons_append, List.head?_cons]
    intro h
    rw [Option.some.injEq] at h
    exact absurd h (by decide)

theorem formatLines_head (fuel : Nat) (inCode : Bool) (lines : List (List Char))
    (hgood : GoodLines lines)
    (hhead : ∀ l ∈ lines.head?, l.head? ≠ some '\n') :
    (formatLines fuel inCode lines).head? ≠ some '\n' := by
  cases lines with
  | nil => cases fuel <;> simp [formatLines]
  | cons line rest =>
    cases fuel with
    | zero => simp [formatLines]
    | succ fuel =>
      simp only [GoodLines] at hgood
      obtain ⟨⟨hne, hfree, hterm⟩, -, -, -⟩ := hgood
      have hh : line.head? ≠ some '\n' := hhead line (by simp)
      have hrcase : (splitTerminator line).1 = [] →
          (splitTerminator line).2.head? = some '\r' := by
        intro hc
        have hline : line = (splitTerminator line).2 := by
          conv_lhs => rw [← splitTerminator_append line]
          rw [hc, List.nil_append]
        rcases hterm with h | h | h | h
        · exfalso
          apply hh
          rw [hline, h]
          rfl
        · rw [h]
          rfl
        · rw [h]
          rfl
        · exfalso
          apply hne
          rw [hline, h]
      simp only [formatLines]
      split
      next hfence =>
        have hcne : (splitTerminator line).1 ≠ [] := by
          intro h0
          rw [h0] at hfence
          exact absurd hfence (by decide)
        rw [List.append_assoc]
        exact head_append_free _ _ hcne hfree
      next hfence =>
        split
        next hcode =>
          by_cases hc : (splitTerminator line).1 = []
          · have hesc : escape_markdown_v2_code (splitTerminator line).1 = [] := by
              rw [hc]
              rfl
            rw [hesc, List.nil_append]
            exact head_append_term _ _ (hrcase hc)
          · rw [List.append_assoc]
            exact head_append_free _ _ (escape_markdown_v2_code_ne_nil _ hc)
              (fun ch hch => by
                rcases mem_escape_code_or _ _ (fun x hx => hx) ch hch with h | h
                · exact h
                · exact hfree ch h)
        next hcode =>
          cases rest with
          | cons next2 rest2 =>
            dsimp only
            split
            next htab =>
              intro hcon
              rw [List.head?_cons, Option.some.injEq] at hcon
              exact absurd hcon (by decide)
            next htab =>
              by_cases hc : (splitTerminator line).1 = []
              · have hfl : format_line (splitTerminator line).1 = [] := by
                  rw [hc]
                  decide
                rw [hfl, List.nil_append]
                exact head_append_term _ _ (hrcase hc)
              · rw [List.append_assoc]
                exact head_append_free _ _ (format_line_ne_nil _ hc)
                  (fun ch hch => by
                    rcases format_line_chars _ ch hch with h | h
                    · exact h
                    · exact hfree ch h)
          | nil =>
            dsimp only
            by_cases hc : (splitTerminator line).1 = []
            · have hfl : format_line (splitTerminator line).1 = [] := by
                rw [hc]
                decide
              rw [hfl, List.nil_append, hrcase hc]
              decide
            · exact head_append_free _ _ (format_line_ne_nil _ hc)
                (fun ch hch => by
                  rcases format_line_chars _ ch hch with h | h
                  · exact h
                  · exact hfree ch h)

theorem formatLines_terms (lines : List (List Char)) :
    ∀ fuel inCode, lines.length ≤ fuel → GoodLines lines →
      (∀ l ∈ lines, ∀ c ∈ l, ¬c = '|') →
      lineTerminators (formatLines fuel inCode lines) =
        lines.map (fun l => (splitTerminator l).2) := by
  induction lines with
  | nil =>
    intro fuel inCode _ _ _
    cases fuel <;> simp [formatLines, lineTerminators, pySplitlines, splitlinesGo]
  | cons line rest ih =>
    intro fuel inCode hfuel hgood hpipe
    match fuel, hfuel with
    | fuel + 1, hfuel =>
      simp only [GoodLines] at hgood
      obtain ⟨⟨hne, hfree, hterm⟩, hterm_ne, hadj, hgrest⟩ := hgood
      have hfuel2 : rest.length ≤ fuel := by
        simp only [List.length_cons] at hfuel
        omega
      have hcontent_sub : ∀ c ∈ (splitTerminator line).1, c ∈ line := by
        intro c hc
        rw [← splitTerminator_append line]
        exact List.mem_append.mpr (Or.inl hc)
      have hcontent_ne : (splitTerminator line).2 = [] →
          (splitTerminator line).1 ≠ [] := by
        intro ht h0
        apply hne
        conv_lhs => rw [← splitTerminator_append line]
        simp [ht, h0]
      simp only [formatLines]
      split
      next hfence =>
        have hl1 : (splitTerminator line).2 = [] →
            formatLines fuel (!inCode) rest = [] ∧ (splitTerminator line).1 ≠ [] := by
          intro ht
          have hr0 : rest = [] := by
            by_contra hcon
            exact hterm_ne hcon ht
          subst hr0
          exact ⟨by cases fuel <;> rfl, hcontent_ne ht⟩
        have hl2 : (splitTerminator line).2 = ['\r'] →
            (formatLines fuel (!inCode) rest).head? ≠ some '\n' := by
          intro ht
          exact formatLines_head fuel (!inCode) rest hgrest (hadj ht)
        rw [lineTerminators_cons _ _ _ hfree hterm hl1 hl2,
          ih fuel (!inCode) hfuel2 hgrest
            (fun l hl => hpipe l (List.mem_cons_of_mem _ hl))]
        simp
      next hfence =>
        split
        next hcode =>
          have hfree2 : ∀ c ∈ escape_markdown_v2_code (splitTerminator line).1,
              isBreakChar c = false := by
            intro c hc
            rcases mem_escape_code_or _ _ (fun x hx => hx) c hc with h | h
            · exact h
            · exact hfree c h
          have hl1 : (splitTerminator line).2 = [] →
              formatLines fuel inCode rest = [] ∧
                escape_markdown_v2_code (splitTerminator line).1 ≠ [] := by
            intro ht
            have hr0 : rest = [] := by
              by_contra hcon
              exact hterm_ne hcon ht
            subst hr0
            exact ⟨by cases fuel <;> rfl,
              escape_markdown_v2_code_ne_nil _ (hcontent_ne ht)⟩
          have hl2 : (splitTerminator line).2 = ['\r'] →
              (formatLines fuel inCode rest).head? ≠ some '\n' := by
            intro ht
            exact formatLines_head fuel inCode rest hgrest (hadj ht)
          rw [lineTerminators_cons _ _ _ hfree2 hterm hl1 hl2,
            ih fuel inCode hfuel2 hgrest
              (fun l hl => hpipe l (List.mem_cons_of_mem _ hl))]
          simp
        next hcode =>
          have hfree2 : ∀ c ∈ format_line (splitTerminator line).1,
              isBreakChar c = false := by
            intro c hc
            rcases format_line_chars _ c hc with h | h
            · exact h
            · exact hfree c h
          cases rest with
          | cons next2 rest2 =>
            dsimp only
            have hnopipe : ((splitTerminator line).1.contains '|') = false := by
              rw [Bool.eq_false_iff]
              intro hcon
              have hmem : '|' ∈ (splitTerminator line).1 := by
                rw [← List.elem_iff]
                exact hcon
              exact hpipe line (List.mem_cons_self _ _) '|'
                (hcontent_sub '|' hmem) rfl
            split
            next htab =>
              rw [hnopipe] at htab
              simp at htab
            next htab =>
              have hl1 : (splitTerminator line).2 = [] →
                  formatLines fuel false (next2 :: rest2) = [] ∧
                    format_line (splitTerminator line).1 ≠ [] := by
                intro ht
                exact absurd ht (hterm_ne (by simp))
              have hl2 : (splitTerminator line).2 = ['\r'] →
                  (formatLines fuel false (next2 :: rest2)).head? ≠ some '\n' := by
                intro ht
                exact formatLines_head fuel false (next2 :: rest2) hgrest (hadj ht)
              rw [lineTerminators_cons _ _ _ hfree2 hterm hl1 hl2,
                ih fuel false hfuel2 hgrest
                  (fun l hl => hpipe l (List.mem_cons_of_mem _ hl))]
              simp
          | nil =>
            dsimp only
            have hl1 : (splitTerminator line).2 = [] →
                ([] : List Char) = [] ∧ format_line (splitTerminator line).1 ≠ [] := by
              intro ht
              exact ⟨rfl, format_line_ne_nil _ (hcontent_ne ht)⟩
            have hl2 : (splitTerminator line).2 = ['\r'] →
                ([] : List Char).head? ≠ some '\n' := by
              intro _
              simp
            have hrw : format_line (splitTerminator line).1 ++ (splitTerminator line).2 =
                format_line (splitTerminator line).1 ++ (splitTerminator line).2 ++
                  ([] : List Char) := by
              rw [List.append_nil]
            rw [hrw, lineTerminators_cons _ _ _ hfree2 hterm hl1 hl2]
            simp [lineTerminators, pySplitlines, splitlinesGo]

/-! ### Claim theorem: C4 (amended) -/

/-- C4 (amended): line terminators are preserved verbatim for every document
whose break characters are only `\n` and `\r` and in which no `|` occurs (so
the table branch, which rewrites the consumed lines' terminators, is never
taken): the output's sequence of line terminators equals the input's. -/
theorem C4_amended (text : List Char)
    (hbr : ∀ c ∈ text, isBreakChar c = true → c = '\n' ∨ c = '\r')
    (hpipe : ∀ c ∈ text, ¬c = '|') :
    lineTerminators (format_for_markdown_v2 text) = lineTerminators text := by
  unfold format_for_markdown_v2
  have hgood : GoodLines (pySplitlines text) := pySplitlines_good text hbr
  have hlines : ∀ l ∈ pySplitlines text, ∀ c ∈ l, ¬c = '|' := by
    intro l hl c hc
    rcases splitlinesGo_chars [] text l hl c hc with h | h
    · simp at h
    · exact hpipe c h
  rw [formatLines_terms (pySplitlines text) (pySplitlines text).length false
    (Nat.le_refl _) hgood hlines]
  rfl

theorem C4_amended_witness :
    (∀ c ∈ ('a' :: '\n' :: 'b' :: '\r' :: 'c' :: []), isBreakChar c = true →
      c = '\n' ∨ c = '\r') ∧
    (∀ c ∈ ('a' :: '\n' :: 'b' :: '\r' :: 'c' :: []), ¬c = '|') ∧
    lineTerminators (format_for_markdown_v2 ('a' :: '\n' :: 'b' :: '\r' :: 'c' :: [])) =
      lineTerminators ('a' :: '\n' :: 'b' :: '\r' :: 'c' :: []) :=
  ⟨by decide, by decide, C4_amended _ (by decide) (by decide)⟩

end MdBot
